import Mathlib

set_option maxHeartbeats 1000000

/-!
Shallow embedding of the keyword-extraction ranking engine
(co-occurrence matrix, TextRank power iteration, ranking utility).

`f32` values are modelled as exact rationals.  The only divisions the source
performs are (a) by the running maximum of the co-occurrence matrix, (b) by a
node's outgoing weight sum, and (c) by a phrase's word count; in every case the
denominator is zero only when the numerator is zero too, so the IEEE result of
such a division (`0.0/0.0 = NaN`) is modelled by an explicit `nan` constructor.
`HashMap`s are modelled as association lists (for graph state) or as lookup
functions built by in-order insertion (for the word-index maps), matching the
`collect` semantics where a later duplicate key overwrites an earlier one.
-/

/-- An `f32` value produced by a division in this code base: either a finite
value (modelled exactly as a rational) or NaN. -/
inductive FVal where
  | nan : FVal
  | fin : ℚ → FVal
deriving DecidableEq, Repr

/-- `x / m` as the source's `f32` division.  In every context where the source
divides, `m = 0` forces `x = 0` (the numerator is bounded by the
denominator-producing maximum, or is a sum over an empty list), so the `nan`
branch is exactly the IEEE `0.0/0.0` result. -/
def fdiv (x m : ℚ) : FVal := if m = 0 then FVal.nan else FVal.fin (x / m)

/-- Splitting a character list at every whitespace character, keeping the
chunks in order (`acc` holds the current chunk, reversed). -/
def splitWhitespaceAux : List Char → List Char → List String
  | [], acc => [String.mk acc.reverse]
  | c :: cs, acc =>
    if c.isWhitespace then String.mk acc.reverse :: splitWhitespaceAux cs []
    else splitWhitespaceAux cs (c :: acc)

/-- Models Rust `str::split_whitespace`: whitespace-delimited tokens with empty
tokens dropped (so runs of whitespace and leading/trailing whitespace are
ignored); structural recursion on the character list. -/
def splitWhitespace (s : String) : List String :=
  (splitWhitespaceAux s.data []).filter (fun t => ¬ t = "")

/-- `get_window_range` (src/co_occurrence.rs): half-open index range around
`index`, clamped to `[0, words_length)`; returned as a `(start, end)` pair.
Rust's `saturating_sub` is ℕ subtraction. -/
def get_window_range (window_size index words_length : Nat) : Nat × Nat :=
  (index - window_size, min (index + window_size + 1) words_length)

/-- `create_words_indexes` (src/co_occurrence.rs): each word mapped to its
position; `collect` into a `HashMap` lets a later duplicate overwrite an
earlier one, modelled by folding function updates in order. -/
def create_words_indexes (words : List String) : String → Option Nat :=
  words.enum.foldl (fun m p => fun s => if s = p.2 then some p.1 else m s) (fun _ => none)

/-- The in-window label pairs contributed by one document, in the order the
accumulation loop of `get_matrix` visits them: for each position `i` whose word
is in the vocabulary, every other in-window position `j ≠ i` whose word is in
the vocabulary contributes the pair of their labels. -/
def doc_pairs (wi : String → Option Nat) (window_size : Nat) (doc_words : List String) :
    List (Nat × Nat) :=
  (List.range doc_words.length).flatMap (fun i =>
    match wi (doc_words.getD i "") with
    | none => []
    | some first_index =>
      (List.range' (get_window_range window_size i doc_words.length).1
          ((get_window_range window_size i doc_words.length).2
            - (get_window_range window_size i doc_words.length).1)).filterMap (fun j =>
        if i = j then none
        else ((doc_words.get? j).bind wi).map (fun other_index => (first_index, other_index))))

/-- All label pairs the accumulation loop of `get_matrix` visits, over all
documents (each document is split on whitespace first). -/
def all_pairs (wi : String → Option Nat) (window_size : Nat) (documents : List String) :
    List (Nat × Nat) :=
  documents.flatMap (fun doc => doc_pairs wi window_size (splitWhitespace doc))

/-- One increment of `get_matrix`'s accumulation: bump the cell by `1.0` and
update the running maximum with the new value of that cell
(`if current > max { max = current }`). -/
def bump (st : (Nat → Nat → ℚ) × ℚ) (p : Nat × Nat) : (Nat → Nat → ℚ) × ℚ :=
  let c := st.1 p.1 p.2 + 1
  (fun x y => if x = p.1 ∧ y = p.2 then c else st.1 x y, if st.2 < c then c else st.2)

/-- `get_matrix` (src/co_occurrence.rs): accumulate windowed co-occurrence
counts together with the running maximum, then divide every cell by the
maximum — unconditionally, exactly as the source does.  The `length × length`
`Vec<Vec<f32>>` is modelled as a function of the two labels (all queries are at
labels `< length`). -/
def get_matrix (documents : List String) (wi : String → Option Nat) (window_size : Nat) :
    Nat → Nat → FVal :=
  let st := (all_pairs wi window_size documents).foldl bump (fun _ _ => 0, 0)
  fun x y => fdiv (st.1 x y) st.2

/-- The `CoOccurrence` struct (src/co_occurrence.rs). -/
structure CoOccurrence where
  matrix : Nat → Nat → FVal
  words : List String
  words_indexes : String → Option Nat

/-- `CoOccurrence::new`. -/
def CoOccurrence.new (documents words : List String) (window_size : Nat) : CoOccurrence :=
  let wi := create_words_indexes words
  { matrix := get_matrix documents wi window_size
    words := words
    words_indexes := wi }

/-- `CoOccurrence::get_label`. -/
def CoOccurrence.get_label (co : CoOccurrence) (word : String) : Option Nat :=
  co.words_indexes word

/-- `CoOccurrence::get_word`. -/
def CoOccurrence.get_word (co : CoOccurrence) (label : Nat) : Option String :=
  co.words.get? label

/-- `CoOccurrence::get_relation`: `None` as soon as either word has no label,
otherwise the matrix cell at the two labels. -/
def CoOccurrence.get_relation (co : CoOccurrence) (word1 word2 : String) : Option FVal :=
  match co.get_label word1 with
  | none => none
  | some label1 =>
    match co.get_label word2 with
    | none => none
    | some label2 => some (co.matrix label1 label2)

/-- The `v > 0.0` test of `get_relations` on an `f32` cell; `NaN > 0.0` is
false. -/
def fgtZero : FVal → Bool
  | FVal.nan => false
  | FVal.fin q => 0 < q

/-- `CoOccurrence::get_relations`: `None` for an unknown word, otherwise the
positive cells of the word's row paired with their words. -/
def CoOccurrence.get_relations (co : CoOccurrence) (word : String) :
    Option (List (String × FVal)) :=
  match co.get_label word with
  | none => none
  | some label =>
    some ((List.range co.words.length).filterMap (fun i =>
      if fgtZero (co.matrix label i) then (co.get_word i).map (fun w => (w, co.matrix label i))
      else none))

/-- `CoOccurrence::get_matrix_row`: `None` for an unknown word, otherwise the
word's full matrix row. -/
def CoOccurrence.get_matrix_row (co : CoOccurrence) (word : String) : Option (List FVal) :=
  match co.get_label word with
  | none => none
  | some label => some ((List.range co.words.length).map (fun i => co.matrix label i))

/-! ## TextRank engine (src/text_rank/text_rank_logic.rs) -/

/-- A node's neighbor map `HashMap<&str, f32>`, modelled as an association list
with unique keys. -/
abbrev Edges := List (String × ℚ)

/-- The word graph `HashMap<&str, HashMap<&str, f32>>`. -/
abbrev WordGraph := List (String × Edges)

/-- `HashMap` lookup on an association list. -/
def lookupA {α : Type} (l : List (String × α)) (k : String) : Option α :=
  (l.find? (fun p => p.1 = k)).map (fun p => p.2)

/-- The inner `entry(word2).and_modify(|e| *e += 1.0).or_insert(1.0)` of
`add_edge`. -/
def bump_edge (es : Edges) (w : String) : Edges :=
  match es with
  | [] => [(w, 1)]
  | (y, q) :: rest => if y = w then (y, q + 1) :: rest else (y, q) :: bump_edge rest w

/-- `TextRankLogic::add_edge`: bump `graph[word1][word2]` by `1.0`, creating the
node entry (`entry(word1).or_default()`) and/or the edge as needed. -/
def add_edge (graph : WordGraph) (word1 word2 : String) : WordGraph :=
  match graph with
  | [] => [(word1, [(word2, 1)])]
  | (x, es) :: rest =>
    if x = word1 then (x, bump_edge es word2) :: rest
    else (x, es) :: add_edge rest word1 word2

/-- The forward-window word pairs visited by `create_graph`, in order: for each
position `i`, the next `window_size` words (`words[i+1..].iter().take(window_size)`),
skipping pairs of equal words. -/
def visit_pairs (words : List String) (window_size : Nat) : List (String × String) :=
  words.enum.flatMap (fun p =>
    (((words.drop (p.1 + 1)).take window_size).filter (fun w2 => ¬ p.2 = w2)).map
      (fun w2 => (p.2, w2)))

/-- `TextRankLogic::create_graph`: every visited pair adds an edge in both
directions. -/
def create_graph (words : List String) (window_size : Nat) : WordGraph :=
  (visit_pairs words window_size).foldl
    (fun g p => add_edge (add_edge g p.1 p.2) p.2 p.1) []

/-- `graph.keys()`, in the map's iteration order. -/
def graph_nodes (graph : WordGraph) : List String :=
  graph.map (fun p => p.1)

/-- `TextRankLogic::get_outgoing_weight_sum`: for every node, the sum of all
edge weights leaving it. -/
def get_outgoing_weight_sum (graph : WordGraph) : List (String × ℚ) :=
  graph.map (fun p => (p.1, (p.2.map (fun e => e.2)).sum))

/-- `get_node_indexes`: node-to-position map over the key list, with `collect`'s
later-overwrites-earlier semantics (same shape as `create_words_indexes`). -/
def get_node_indexes (nodes : List String) : String → Option Nat :=
  create_words_indexes nodes

/-- `score_word`: `(1 - d) + d * Σ (weight / outgoing_sum(neighbor)) * prev(neighbor)`.
The source indexes into panicking maps; lookups are modelled with default `0`
and are proved to always succeed on graphs built by `create_graph` (see C10).
ℚ division by zero yields `0` in Lean, but every reachable denominator is
`≥ 1` (C10), so the model is faithful on all reachable states. -/
def score_word (edges : Edges) (node_indexes : String → Option Nat)
    (outgoing_weight_sums : List (String × ℚ)) (prev_scores : List ℚ) (damping : ℚ) : ℚ :=
  (1 - damping) + damping * ((edges.map (fun e =>
    e.2 / ((lookupA outgoing_weight_sums e.1).getD 0)
      * (prev_scores.getD ((node_indexes e.1).getD 0) 0))).sum)

/-- `get_scores`: one power-iteration pass over all nodes, in the graph's
iteration order (the same order `graph.keys()` used to assign indexes). -/
def get_scores (graph : WordGraph) (node_indexes : String → Option Nat)
    (outgoing_weight_sums : List (String × ℚ)) (prev_scores : List ℚ) (damping : ℚ) :
    List ℚ :=
  graph.map (fun p => score_word p.2 node_indexes outgoing_weight_sums prev_scores damping)

/-- `check_tolorance` (source spelling): every per-node absolute change is
strictly below `tol`. -/
def check_tolorance (scores prev_scores : List ℚ) (tol : ℚ) : Bool :=
  (scores.zip prev_scores).all (fun p => |p.1 - p.2| < tol)

/-- The `loop` of `create_word_rank`, with explicit fuel standing for the
unbounded Rust loop: compute the next scores from the previous ones and stop at
the first iteration whose tolerance check passes. -/
def rank_loop (graph : WordGraph) (node_indexes : String → Option Nat)
    (outgoing_weight_sums : List (String × ℚ)) (damping tol : ℚ) :
    Nat → List ℚ → Option (List ℚ)
  | 0, _ => none
  | fuel + 1, prev =>
    let scores := get_scores graph node_indexes outgoing_weight_sums prev damping
    if check_tolorance scores prev tol then some scores
    else rank_loop graph node_indexes outgoing_weight_sums damping tol fuel scores

/-- `TextRankLogic::create_word_rank`: initial scores all `1.0`, outgoing weight
sums computed once before the loop, then the iteration loop; the converged
scores are keyed back by node.  The source's locals `nodes`, `node_indexes` and
`outgoing_weight_sums` are inlined. -/
def create_word_rank (graph : WordGraph) (damping tol : ℚ) (fuel : Nat) :
    Option (List (String × ℚ)) :=
  (rank_loop graph (get_node_indexes (graph_nodes graph)) (get_outgoing_weight_sum graph)
      damping tol fuel (List.replicate (graph_nodes graph).length 1)).map
    (fun scores => (graph_nodes graph).map
      (fun node => (node, scores.getD ((get_node_indexes (graph_nodes graph) node).getD 0) 0)))

/-- `score_phrase`: split the phrase on whitespace, sum the scores of the words
present in the map, divide by the raw word count (`words.len()`); an empty word
list makes this the `f32` division `0.0 / 0.0 = NaN`. -/
def score_phrase (phrase : String) (word_rank : List (String × ℚ)) : String × FVal :=
  let ws := splitWhitespace phrase
  let score := (ws.filterMap (fun w => lookupA word_rank w)).sum
  (phrase, fdiv score (ws.length : ℚ))

/-- `TextRankLogic::rank_phrases`. -/
def rank_phrases (phrases : List String) (word_scores : List (String × ℚ)) :
    List (String × FVal) :=
  phrases.map (fun phrase => score_phrase phrase word_scores)

/-- `TextRankLogic::build_text_rank` (fuel-passing for the unbounded loop). -/
def build_text_rank (words phrases : List String) (window_size : Nat)
    (damping tol : ℚ) (fuel : Nat) :
    Option (List (String × ℚ) × List (String × FVal)) :=
  (create_word_rank (create_graph words window_size) damping tol fuel).map
    (fun word_rank => (word_rank, rank_phrases phrases word_rank))

/-! ## Ranking utility (src/common/functions.rs) -/

/-- The order `basic_sort`'s comparator establishes: `a` precedes-or-equals `b`
iff `a`'s score is larger, or the scores are equal and `a`'s term is
lexicographically no larger (`b.1.partial_cmp(a.1)` then `a.0.cmp(b.0)`). -/
def rank_ord (a b : String × ℚ) : Prop :=
  b.2 < a.2 ∨ (a.2 = b.2 ∧ a.1 ≤ b.1)

instance : DecidableRel rank_ord := fun a b => by
  unfold rank_ord; infer_instance

instance : IsTotal (String × ℚ) rank_ord where
  total := by
    intro a b
    rcases lt_trichotomy a.2 b.2 with h | h | h
    · exact Or.inr (Or.inl h)
    · rcases le_total a.1 b.1 with hs | hs
      · exact Or.inl (Or.inr ⟨h, hs⟩)
      · exact Or.inr (Or.inr ⟨h.symm, hs⟩)
    · exact Or.inl (Or.inl h)

instance : IsTrans (String × ℚ) rank_ord where
  trans := by
    intro a b c hab hbc
    rcases hab with h1 | ⟨h1, h1s⟩
    · rcases hbc with h2 | ⟨h2, h2s⟩
      · exact Or.inl (h2.trans h1)
      · exact Or.inl (h2 ▸ h1)
    · rcases hbc with h2 | ⟨h2, h2s⟩
      · exact Or.inl (by rw [h1]; exact h2)
      · exact Or.inr ⟨h1.trans h2, h1s.trans h2s⟩

/-- `basic_sort`: sort the map's entries with the comparator.  The source uses
Rust's stable `sort_by`; on entries with distinct keys the comparator is a
total antisymmetric order, so any comparison sort produces the same list;
modelled with insertion sort. -/
def basic_sort (map : List (String × ℚ)) : List (String × ℚ) :=
  List.insertionSort rank_ord map

/-- `get_ranked_strings`: first `n` sorted terms. -/
def get_ranked_strings (map : List (String × ℚ)) (n : Nat) : List String :=
  ((basic_sort map).take n).map (fun p => p.1)

/-- `get_ranked_scores`: first `n` sorted (term, score) pairs. -/
def get_ranked_scores (map : List (String × ℚ)) (n : Nat) : List (String × ℚ) :=
  (basic_sort map).take n

/-! ## Spec-side definitions (for refinement statements) -/

/-- Spec formulation (§4.4): a node's outgoing weight sum is the sum of all
edge weights leaving that node in the graph. -/
def spec_outgoing_sum (graph : WordGraph) (node : String) : ℚ :=
  (((lookupA graph node).getD []).map (fun e => e.2)).sum

/-- Spec formulation (§4.4): the previous score of a node is the score stored
at that node's position in the key list. -/
def spec_prev_at (graph : WordGraph) (prev : List ℚ) (node : String) : ℚ :=
  prev.getD ((graph_nodes graph).indexOf node) 0

/-- Spec formulation (§4.4 step 3) of one whole power-iteration update:
for every node, `(1 - d) + d * Σ_neighbor (edge_weight(node, neighbor) /
outgoing_weight_sum(neighbor)) * previous_score(neighbor)`. -/
def spec_score_update (graph : WordGraph) (prev : List ℚ) (damping : ℚ) : List ℚ :=
  graph.map (fun p =>
    (1 - damping) + damping *
      ((p.2.map (fun e => e.2 / spec_outgoing_sum graph e.1 * spec_prev_at graph prev e.1)).sum))

/-- One source iteration of the loop in `create_word_rank`, as a function of the
previous scores. -/
def tr_step (graph : WordGraph) (damping : ℚ) (prev : List ℚ) : List ℚ :=
  get_scores graph (get_node_indexes (graph_nodes graph)) (get_outgoing_weight_sum graph)
    prev damping

/-- The score vector after `n` source iterations, starting from all-ones. -/
def tr_iter (graph : WordGraph) (damping : ℚ) (n : Nat) : List ℚ :=
  (tr_step graph damping)^[n] (List.replicate (graph_nodes graph).length 1)

/-- Whether the loop's tolerance check passes at iteration `n ≥ 1`. -/
def tr_stop (graph : WordGraph) (damping tol : ℚ) (n : Nat) : Bool :=
  check_tolorance (tr_iter graph damping n) (tr_iter graph damping (n - 1)) tol

/-- The stored edge weight from `a` to `b` in the word graph (`None` when the
node or the edge is absent). -/
def getWeight (graph : WordGraph) (a b : String) : Option ℚ :=
  (lookupA graph a).bind (fun es => lookupA es b)

/-- Adding `n` weight-1 contributions to an optional accumulated edge weight:
absent stays absent for `n = 0`, otherwise the weight becomes the previous
value (default 0) plus `n`. -/
def ocount (o : Option ℚ) (n : Nat) : Option ℚ :=
  if n = 0 then o else some (o.getD 0 + (n : ℚ))

/-! ## Auxiliary predicates used by the proofs -/

/-- The condition under which the accumulation loop of `get_matrix` increments
cell `(a, b)` from center position `i` and window position `j` of a document:
both positions carry vocabulary words with labels `a` resp. `b`, `j ≠ i`, and
`j` lies in the clamped window around `i`. -/
def win_cond (wi : String → Option Nat) (dws : List String) (w a b i j : Nat) : Prop :=
  ((dws.get? i).bind wi = some a) ∧ ((dws.get? j).bind wi = some b) ∧
    ¬ i = j ∧ i - w ≤ j ∧ j < i + w + 1

instance (wi : String → Option Nat) (dws : List String) (w a b i j : Nat) :
    Decidable (win_cond wi dws w a b i j) := by
  unfold win_cond; infer_instance

/-- Invariant of `get_matrix`'s accumulation state: cells are non-negative, the
running maximum bounds every cell, and a non-zero maximum is attained at some
in-range cell. -/
def MatInv (L : Nat) (st : (Nat → Nat → ℚ) × ℚ) : Prop :=
  (∀ a b, 0 ≤ st.1 a b) ∧ (∀ a b, st.1 a b ≤ st.2) ∧
    (st.2 = 0 ∨ ∃ a b, a < L ∧ b < L ∧ st.1 a b = st.2)

/-- C7: for every window radius `w`, center `i` and length `L`,
`get_window_range` returns exactly the half-open range
`[max(0, i-w), min(L, i+w+1))`, never underflowing and never exceeding `L`;
in particular `(2, 0, 5) ↦ [0,3)` and `(2, 4, 5) ↦ [2,5)`. -/
theorem c7_window_range (w i L : Nat) :
    ((get_window_range w i L).1 : ℤ) = max 0 ((i : ℤ) - (w : ℤ)) ∧
    (get_window_range w i L).2 = min L (i + w + 1) ∧
    (get_window_range w i L).2 ≤ L ∧
    get_window_range 2 0 5 = (0, 3) ∧
    get_window_range 2 4 5 = (2, 5) := by
  refine ⟨?_, ?_, ?_, rfl, rfl⟩
  · simp only [get_window_range]
    omega
  · simp only [get_window_range]
    omega
  · simp only [get_window_range]
    omega

/-! ## Characterization of the word-index maps -/

/-- The index-map fold: the last inserted entry for a key wins, falling back to
the initial map. -/
theorem foldl_upd_eq (l : List (Nat × String)) (m : String → Option Nat) (s : String) :
    (l.foldl (fun m p => fun s => if s = p.2 then some p.1 else m s) m) s
      = match l.reverse.find? (fun p => p.2 = s) with
        | some p => some p.1
        | none => m s := by
  induction l generalizing m with
  | nil => rfl
  | cons q l ih =>
    rw [List.foldl_cons, ih, List.reverse_cons, List.find?_append]
    cases hf : l.reverse.find? (fun p => p.2 = s) with
    | some p => simp [Option.or]
    | none =>
      by_cases hq : q.2 = s
      · simp [Option.or, List.find?, hq]
      · simp [Option.or, List.find?, hq, Ne.symm hq]

/-- `create_words_indexes` via the last matching entry of the enumeration. -/
theorem create_words_indexes_eq (words : List String) (s : String) :
    create_words_indexes words s
      = match words.enum.reverse.find? (fun p => p.2 = s) with
        | some p => some p.1
        | none => none :=
  foldl_upd_eq words.enum (fun _ => none) s

/-- A word gets no label exactly when it is not in the vocabulary. -/
theorem create_words_indexes_eq_none_iff (words : List String) (s : String) :
    create_words_indexes words s = none ↔ s ∉ words := by
  rw [create_words_indexes_eq]
  cases hf : words.enum.reverse.find? (fun p => p.2 = s) with
  | none =>
    rw [List.find?_eq_none] at hf
    constructor
    · intro _ hs
      have hs' : s ∈ words.enum.map Prod.snd := by rw [List.enum_map_snd]; exact hs
      obtain ⟨p, hp, hps⟩ := List.mem_map.mp hs'
      exact (hf p (List.mem_reverse.mpr hp)) (by simpa using hps)
    · intro _; rfl
  | some p =>
    have hmem : p ∈ words.enum := List.mem_reverse.mp (List.mem_of_find?_eq_some hf)
    have hps : p.2 = s := by simpa using List.find?_some hf
    have : s ∈ words := by
      rw [← hps, ← List.enum_map_snd words]
      exact List.mem_map_of_mem Prod.snd hmem
    simp [this]

/-- A label is an in-range position of the labelled word. -/
theorem create_words_indexes_eq_some (words : List String) (s : String) (k : Nat)
    (h : create_words_indexes words s = some k) :
    k < words.length ∧ words.get? k = some s := by
  rw [create_words_indexes_eq] at h
  cases hf : words.enum.reverse.find? (fun p => p.2 = s) with
  | none => rw [hf] at h; cases h
  | some p =>
    rw [hf] at h
    have hk : p.1 = k := by cases h; rfl
    have hmem : p ∈ words.enum := List.mem_reverse.mp (List.mem_of_find?_eq_some hf)
    have hps : p.2 = s := by simpa using List.find?_some hf
    have hget : words.get? p.1 = some p.2 := List.mem_enum_iff_get?.mp hmem
    constructor
    · rw [← hk]
      exact (List.get?_eq_some.mp (hps ▸ hget)).1
    · rw [← hk, hget, hps]

/-- A vocabulary word always gets a label. -/
theorem create_words_indexes_mem (words : List String) (s : String) (h : s ∈ words) :
    ∃ k, create_words_indexes words s = some k ∧ k < words.length := by
  cases hc : create_words_indexes words s with
  | none => exact absurd ((create_words_indexes_eq_none_iff words s).mp hc) (by simpa using h)
  | some k => exact ⟨k, rfl, (create_words_indexes_eq_some words s k hc).1⟩

/-! ## Counting the accumulation loop's increments -/

/-- Counting over a flattened list sums the per-chunk counts. -/
theorem count_flatMap {α β : Type} [BEq β] (l : List α) (f : α → List β) (x : β) :
    ((l.flatMap f).count x) = (l.map (fun d => (f d).count x)).sum := by
  induction l with
  | nil => rfl
  | cons a l ih => simp [List.flatMap_cons, List.count_append, ih]

/-- Counting a `filterMap` image counts the preimages. -/
theorem count_filterMap_eq {α β : Type} [BEq β] [LawfulBEq β] (f : α → Option β) (l : List α)
    (x : β) :
    ((l.filterMap f).count x) = l.countP (fun j => f j == some x) := by
  induction l with
  | nil => rfl
  | cons a l ih =>
    cases hf : f a with
    | none => simp [List.filterMap_cons, hf, List.countP_cons, ih]
    | some b =>
      by_cases hb : b = x <;>
        simp [List.filterMap_cons, hf, List.count_cons, List.countP_cons, ih, hb]

/-- `countP` over a contiguous range as a `Finset` sum. -/
theorem countP_range' (p : Nat → Bool) : ∀ (n s : Nat),
    (List.range' s n).countP p = ∑ j ∈ Finset.Ico s (s + n), if p j then 1 else 0 := by
  intro n
  induction n with
  | zero => intro s; simp
  | succ n ih =>
    intro s
    rw [List.range'_succ, List.countP_cons,
      Finset.sum_eq_sum_Ico_succ_bot (by omega : s < s + (n + 1))]
    have h : s + 1 + n = s + (n + 1) := by omega
    rw [ih (s + 1), h, Nat.add_comm]

/-- List-level sum over `range` as a `Finset` sum. -/
theorem sum_map_range {M : Type} [AddCommMonoid M] (f : Nat → M) (n : Nat) :
    ((List.range n).map f).sum = ∑ i ∈ Finset.range n, f i := by
  induction n with
  | zero => simp
  | succ n ih => rw [List.range_succ]; simp [ih, Finset.sum_range_succ]

/-- Extending an `Ico` sum to a `range` sum with an explicit membership guard. -/
theorem sum_Ico_extend {M : Type} [AddCommMonoid M] (lo hi L : Nat) (hL : hi ≤ L)
    (f : Nat → M) :
    ∑ j ∈ Finset.Ico lo hi, f j
      = ∑ j ∈ Finset.range L, if lo ≤ j ∧ j < hi then f j else 0 := by
  calc ∑ j ∈ Finset.Ico lo hi, f j
      = ∑ j ∈ Finset.range L ∩ Finset.Ico lo hi, f j := by
        congr 1
        rw [Finset.range_eq_Ico, Finset.Ico_inter_Ico]
        congr 1 <;> omega
    _ = ∑ j ∈ Finset.range L, if j ∈ Finset.Ico lo hi then f j else 0 :=
        (Finset.sum_ite_mem _ _ _).symm
    _ = ∑ j ∈ Finset.range L, if lo ≤ j ∧ j < hi then f j else 0 := by
        apply Finset.sum_congr rfl
        intro j _
        simp [Finset.mem_Ico]

/-- The number of times the accumulation loop increments cell `(a, b)` from one
document, as a double sum of window indicators over all position pairs. -/
theorem doc_pairs_count (wi : String → Option Nat) (w : Nat) (dws : List String)
    (a b : Nat) :
    ((doc_pairs wi w dws).count (a, b))
      = ∑ i ∈ Finset.range dws.length, ∑ j ∈ Finset.range dws.length,
          if win_cond wi dws w a b i j then 1 else 0 := by
  unfold doc_pairs
  rw [count_flatMap, sum_map_range]
  apply Finset.sum_congr rfl
  intro i hi
  rw [Finset.mem_range] at hi
  have hgi : dws.get? i = some (dws.getD i "") := by
    rw [List.get?_eq_get hi, List.getD_eq_get _ _ hi]
  cases hw : wi (dws.getD i "") with
  | none =>
    simp only [hw]
    symm
    apply Finset.sum_eq_zero
    intro j _
    rw [if_neg]
    intro hc
    have h1 := hc.1
    rw [hgi] at h1
    have h1' : wi (dws.getD i "") = some a := h1
    rw [hw] at h1'
    cases h1'
  | some fi =>
    simp only [hw]
    rw [count_filterMap_eq, countP_range']
    have hr2 : (get_window_range w i dws.length).1
        + ((get_window_range w i dws.length).2 - (get_window_range w i dws.length).1)
        = (get_window_range w i dws.length).2 := by
      simp only [get_window_range]; omega
    rw [hr2, sum_Ico_extend _ _ dws.length (by simp only [get_window_range]; omega)]
    apply Finset.sum_congr rfl
    intro j hj
    rw [Finset.mem_range] at hj
    simp only [beq_iff_eq]
    by_cases hwc : win_cond wi dws w a b i j
    · obtain ⟨h1, h2, h3, h4, h5⟩ := hwc
      have hfa : fi = a := by
        rw [hgi] at h1
        simp only [Option.some_bind, hw] at h1
        exact Option.some.inj h1
      rw [if_pos (show win_cond wi dws w a b i j from ⟨h1, h2, h3, h4, h5⟩)]
      rw [if_pos (show (get_window_range w i dws.length).1 ≤ j
          ∧ j < (get_window_range w i dws.length).2 by
        simp only [get_window_range]; omega)]
      rw [if_pos]
      rw [if_neg h3, h2]
      simp [hfa]
    · rw [if_neg hwc]
      by_cases houter : (get_window_range w i dws.length).1 ≤ j
          ∧ j < (get_window_range w i dws.length).2
      · rw [if_pos houter, if_neg]
        intro hp
        by_cases hij : i = j
        · rw [if_pos hij] at hp; cases hp
        · rw [if_neg hij] at hp
          obtain ⟨oi, hoi, hpair⟩ := Option.map_eq_some'.mp hp
          have hfa : fi = a := (Prod.mk.injEq _ _ _ _).mp hpair |>.1
          have hob : oi = b := (Prod.mk.injEq _ _ _ _).mp hpair |>.2
          apply hwc
          refine ⟨?_, ?_, hij, ?_, ?_⟩
          · rw [hgi]; simp only [Option.some_bind, hw, hfa]
          · rw [hoi, hob]
          · have := houter.1; simp only [get_window_range] at this; omega
          · have := houter.2; simp only [get_window_range] at this; omega
      · rw [if_neg houter]

/-- Per-document symmetry: cell `(a, b)` and cell `(b, a)` receive the same
number of increments, because the clamped window relation is symmetric. -/
theorem doc_pairs_count_symm (wi : String → Option Nat) (w : Nat) (dws : List String)
    (a b : Nat) :
    ((doc_pairs wi w dws).count (a, b)) = ((doc_pairs wi w dws).count (b, a)) := by
  rw [doc_pairs_count, doc_pairs_count, Finset.sum_comm]
  apply Finset.sum_congr rfl
  intro i _
  apply Finset.sum_congr rfl
  intro j _
  apply if_congr ?_ rfl rfl
  unfold win_cond
  constructor
  · rintro ⟨h1, h2, h3, h4, h5⟩
    exact ⟨h2, h1, by omega, by omega, by omega⟩
  · rintro ⟨h1, h2, h3, h4, h5⟩
    exact ⟨h2, h1, by omega, by omega, by omega⟩

/-- Corpus-level symmetry of the increment counts. -/
theorem all_pairs_count_symm (wi : String → Option Nat) (w : Nat)
    (documents : List String) (a b : Nat) :
    ((all_pairs wi w documents).count (a, b)) = ((all_pairs wi w documents).count (b, a)) := by
  unfold all_pairs
  rw [count_flatMap, count_flatMap]
  congr 1
  apply List.map_congr_left
  intro doc _
  exact doc_pairs_count_symm wi w (splitWhitespace doc) a b

/-- Every label pair visited by the accumulation loop is within the vocabulary
range. -/
theorem all_pairs_lt (words documents : List String) (w : Nat) :
    ∀ p ∈ all_pairs (create_words_indexes words) w documents,
      p.1 < words.length ∧ p.2 < words.length := by
  intro p hp
  unfold all_pairs at hp
  rw [List.mem_flatMap] at hp
  obtain ⟨doc, _, hp⟩ := hp
  unfold doc_pairs at hp
  rw [List.mem_flatMap] at hp
  obtain ⟨i, _, hp⟩ := hp
  cases hw : create_words_indexes words ((splitWhitespace doc).getD i "") with
  | none => rw [hw] at hp; cases hp
  | some fi =>
    rw [hw] at hp
    rw [List.mem_filterMap] at hp
    obtain ⟨j, _, hj⟩ := hp
    by_cases hij : i = j
    · rw [if_pos hij] at hj; cases hj
    · rw [if_neg hij] at hj
      obtain ⟨oi, hoi, hpair⟩ := Option.map_eq_some'.mp hj
      obtain ⟨v, _, hv⟩ := Option.bind_eq_some.mp hoi
      have h1 := (create_words_indexes_eq_some words _ fi hw).1
      have h2 := (create_words_indexes_eq_some words v oi hv).1
      rw [← hpair]
      exact ⟨h1, h2⟩

/-- The accumulated cell value is the initial value plus the number of visits. -/
theorem foldl_bump_matrix : ∀ (ps : List (Nat × Nat)) (st : (Nat → Nat → ℚ) × ℚ)
    (a b : Nat),
    ((ps.foldl bump st).1 a b) = st.1 a b + ((ps.count (a, b) : ℕ) : ℚ) := by
  intro ps
  induction ps with
  | nil => intro st a b; simp
  | cons p ps ih =>
    intro st a b
    rw [List.foldl_cons, ih, List.count_cons]
    by_cases h : a = p.1 ∧ b = p.2
    · obtain ⟨h1, h2⟩ := h
      have hpe : (p == (a, b)) = true := by
        rw [beq_iff_eq]; rw [h1, h2]
      rw [hpe]
      simp only [bump, if_pos (And.intro h1 h2)]
      rw [h1, h2]
      push_cast
      ring
    · have hpe : (p == (a, b)) = false := by
        rw [beq_eq_false_iff_ne]
        intro hcon
        apply h
        subst hcon
        exact ⟨rfl, rfl⟩
      rw [hpe]
      simp only [bump, if_neg h]
      push_cast
      ring

/-- One `bump` preserves the accumulation invariant; the maximum is monotone
and at least `1` afterwards. -/
theorem bump_inv (L : Nat) (st : (Nat → Nat → ℚ) × ℚ) (p : Nat × Nat)
    (hp : p.1 < L ∧ p.2 < L) (h : MatInv L st) :
    MatInv L (bump st p) ∧ st.2 ≤ (bump st p).2 ∧ 1 ≤ (bump st p).2 := by
  obtain ⟨hnn, hle, hmax⟩ := h
  have hc1 : (1 : ℚ) ≤ st.1 p.1 p.2 + 1 := by
    have := hnn p.1 p.2; linarith
  by_cases hlt : st.2 < st.1 p.1 p.2 + 1
  · refine ⟨⟨?_, ?_, ?_⟩, ?_, ?_⟩
    · intro a b
      simp only [bump, if_pos hlt]
      by_cases hab : a = p.1 ∧ b = p.2
      · rw [if_pos hab]; have := hnn p.1 p.2; linarith
      · rw [if_neg hab]; exact hnn a b
    · intro a b
      simp only [bump, if_pos hlt]
      by_cases hab : a = p.1 ∧ b = p.2
      · rw [if_pos hab]
      · rw [if_neg hab]
        have := hle a b; linarith
    · right
      refine ⟨p.1, p.2, hp.1, hp.2, ?_⟩
      simp only [bump, if_pos hlt]
      simp
    · simp only [bump, if_pos hlt]; linarith [hle p.1 p.2]
    · simp only [bump, if_pos hlt]; exact hc1
  · refine ⟨⟨?_, ?_, ?_⟩, ?_, ?_⟩
    · intro a b
      simp only [bump, if_neg hlt]
      by_cases hab : a = p.1 ∧ b = p.2
      · rw [if_pos hab]; have := hnn p.1 p.2; linarith
      · rw [if_neg hab]; exact hnn a b
    · intro a b
      simp only [bump, if_neg hlt]
      by_cases hab : a = p.1 ∧ b = p.2
      · rw [if_pos hab]; linarith
      · rw [if_neg hab]; exact hle a b
    · rcases hmax with hz | ⟨a, b, ha, hb, hab⟩
      · exfalso; rw [hz] at hlt; push_neg at hlt; linarith
      · right
        refine ⟨a, b, ha, hb, ?_⟩
        simp only [bump, if_neg hlt]
        by_cases habp : a = p.1 ∧ b = p.2
        · exfalso
          obtain ⟨h1, h2⟩ := habp
          rw [h1, h2] at hab
          push_neg at hlt
          linarith
        · rw [if_neg habp]; exact hab
    · simp only [bump, if_neg hlt]; exact le_refl _
    · simp only [bump, if_neg hlt]; push_neg at hlt; linarith

/-- The accumulation fold preserves the invariant; the maximum is monotone. -/
theorem foldl_bump_inv (L : Nat) : ∀ (ps : List (Nat × Nat)) (st : (Nat → Nat → ℚ) × ℚ),
    (∀ p ∈ ps, p.1 < L ∧ p.2 < L) → MatInv L st →
    MatInv L (ps.foldl bump st) ∧ st.2 ≤ (ps.foldl bump st).2 := by
  intro ps
  induction ps with
  | nil => intro st _ h; exact ⟨h, le_refl _⟩
  | cons p ps ih =>
    intro st hps h
    rw [List.foldl_cons]
    obtain ⟨h1, h2, _⟩ := bump_inv L st p (hps p (List.mem_cons_self p ps)) h
    obtain ⟨h3, h4⟩ := ih (bump st p) (fun q hq => hps q (List.mem_cons_of_mem p hq)) h1
    exact ⟨h3, le_trans h2 h4⟩

/-- If at least one pair is visited, the final running maximum is at least 1. -/
theorem foldl_bump_pos (L : Nat) (ps : List (Nat × Nat)) (st : (Nat → Nat → ℚ) × ℚ)
    (hps : ∀ p ∈ ps, p.1 < L ∧ p.2 < L) (h : MatInv L st) (hne : ps ≠ []) :
    1 ≤ (ps.foldl bump st).2 := by
  cases ps with
  | nil => exact absurd rfl hne
  | cons p ps =>
    rw [List.foldl_cons]
    obtain ⟨h1, _, h2⟩ := bump_inv L st p (hps p (List.mem_cons_self p ps)) h
    obtain ⟨_, h4⟩ := foldl_bump_inv L ps (bump st p)
      (fun q hq => hps q (List.mem_cons_of_mem p hq)) h1
    exact le_trans h2 h4

/-- The all-zero state satisfies the invariant. -/
theorem matInv_zero (L : Nat) : MatInv L ((fun _ _ => (0 : ℚ)), (0 : ℚ)) :=
  ⟨fun _ _ => le_refl 0, fun _ _ => le_refl 0, Or.inl rfl⟩

/-- A cell of the produced matrix is the visit count divided (as `f32`) by the
final running maximum. -/
theorem get_matrix_cell (documents : List String) (wi : String → Option Nat) (w x y : Nat) :
    get_matrix documents wi w x y
      = fdiv (((all_pairs wi w documents).count (x, y) : ℕ) : ℚ)
          (((all_pairs wi w documents).foldl bump (fun _ _ => 0, 0)).2) := by
  have h : get_matrix documents wi w x y
      = fdiv ((((all_pairs wi w documents).foldl bump (fun _ _ => 0, 0)).1) x y)
          (((all_pairs wi w documents).foldl bump (fun _ _ => 0, 0)).2) := rfl
  rw [h, foldl_bump_matrix]
  norm_num

/-- `CoOccurrence::new` projections, fully reduced. -/
theorem get_relation_raw (documents words : List String) (window_size : Nat)
    (w1 w2 : String) :
    (CoOccurrence.new documents words window_size).get_relation w1 w2
      = match create_words_indexes words w1 with
        | none => none
        | some label1 =>
          match create_words_indexes words w2 with
          | none => none
          | some label2 =>
            some (get_matrix documents (create_words_indexes words) window_size label1 label2)
        := rfl

/-- C1 (amended): after accumulation every cell is divided by the running
maximum unconditionally; if at least one co-occurrence was counted the maximum
cell value of the resulting matrix is exactly `1.0` (and every cell is a finite
value in `[0, 1]`), otherwise every cell is `0.0/0.0 = NaN` rather than zero. -/
theorem c1_normalization (documents words : List String) (window_size : Nat) :
    (all_pairs (create_words_indexes words) window_size documents ≠ [] →
      (∃ a b, a < words.length ∧ b < words.length ∧
        (CoOccurrence.new documents words window_size).matrix a b = FVal.fin 1) ∧
      (∀ a b, ∃ q, (CoOccurrence.new documents words window_size).matrix a b = FVal.fin q ∧
        0 ≤ q ∧ q ≤ 1)) ∧
    (all_pairs (create_words_indexes words) window_size documents = [] →
      ∀ a b, (CoOccurrence.new documents words window_size).matrix a b = FVal.nan) := by
  have hm : (CoOccurrence.new documents words window_size).matrix
      = get_matrix documents (create_words_indexes words) window_size := rfl
  have hps := all_pairs_lt words documents window_size
  constructor
  · intro hne
    have hmx : 1 ≤ ((all_pairs (create_words_indexes words) window_size documents).foldl
        bump (fun _ _ => 0, 0)).2 :=
      foldl_bump_pos words.length _ _ hps (matInv_zero _) hne
    obtain ⟨⟨hnn, hle, hmax⟩, _⟩ :=
      foldl_bump_inv words.length
        (all_pairs (create_words_indexes words) window_size documents)
        (fun _ _ => 0, 0) hps (matInv_zero _)
    have hpos : (0 : ℚ) < ((all_pairs (create_words_indexes words) window_size
        documents).foldl bump (fun _ _ => 0, 0)).2 := by linarith
    have hmxne := ne_of_gt hpos
    constructor
    · rcases hmax with hz | ⟨a, b, ha, hb, hab⟩
      · exact absurd hz hmxne
      · refine ⟨a, b, ha, hb, ?_⟩
        rw [hm]
        have hcell : get_matrix documents (create_words_indexes words) window_size a b
            = fdiv (((all_pairs (create_words_indexes words) window_size
                documents).foldl bump (fun _ _ => 0, 0)).1 a b)
              (((all_pairs (create_words_indexes words) window_size documents).foldl
                bump (fun _ _ => 0, 0)).2) := rfl
        rw [hcell, hab]
        unfold fdiv
        rw [if_neg hmxne, div_self hmxne]
    · intro a b
      rw [hm]
      have hcell : get_matrix documents (create_words_indexes words) window_size a b
          = fdiv (((all_pairs (create_words_indexes words) window_size
              documents).foldl bump (fun _ _ => 0, 0)).1 a b)
            (((all_pairs (create_words_indexes words) window_size documents).foldl
              bump (fun _ _ => 0, 0)).2) := rfl
      rw [hcell]
      refine ⟨_, by unfold fdiv; rw [if_neg hmxne], ?_, ?_⟩
      · exact div_nonneg (hnn a b) (le_of_lt hpos)
      · rw [div_le_one hpos]
        exact hle a b
  · intro hz a b
    rw [hm]
    have hcell : get_matrix documents (create_words_indexes words) window_size a b
        = fdiv (((all_pairs (create_words_indexes words) window_size
            documents).foldl bump (fun _ _ => 0, 0)).1 a b)
          (((all_pairs (create_words_indexes words) window_size documents).foldl
            bump (fun _ _ => 0, 0)).2) := rfl
    rw [hcell, hz]
    simp [fdiv]

/-- C1, counterexample to the claim as stated: with vocabulary `["a"]` and no
documents no co-occurrence is counted, yet the resulting matrix is not
all-zero — the unconditional division makes the cell `0.0/0.0 = NaN`. -/
theorem c1_counterexample :
    (CoOccurrence.new [] ["a"] 1).matrix 0 0 = FVal.nan ∧ FVal.nan ≠ FVal.fin 0 := by
  constructor
  · rfl
  · decide

/-- C1, witness: a corpus with one co-occurrence yields a finite matrix whose
maximum cell is exactly `1`. -/
theorem c1_witness :
    (∃ a b, a < 2 ∧ b < 2 ∧
      (CoOccurrence.new ["cat dog"] ["cat", "dog"] 1).matrix a b = FVal.fin 1) ∧
    (∀ a b, ∃ q, (CoOccurrence.new ["cat dog"] ["cat", "dog"] 1).matrix a b = FVal.fin q ∧
      0 ≤ q ∧ q ≤ 1) :=
  (c1_normalization ["cat dog"] ["cat", "dog"] 1).1 (by decide)

/-- C5: for a `CoOccurrence` built from any documents, any vocabulary of
distinct terms and any window size, `get_relation` is symmetric. -/
theorem c5_symmetric_relation (documents words : List String) (window_size : Nat)
    (_h : words.Nodup) (a b : String) :
    (CoOccurrence.new documents words window_size).get_relation a b
      = (CoOccurrence.new documents words window_size).get_relation b a := by
  rw [get_relation_raw, get_relation_raw]
  cases ha : create_words_indexes words a with
  | none =>
    cases hb : create_words_indexes words b with
    | none => rfl
    | some lb => rfl
  | some la =>
    cases hb : create_words_indexes words b with
    | none => rfl
    | some lb =>
      have h1 := get_matrix_cell documents (create_words_indexes words) window_size la lb
      have h2 := get_matrix_cell documents (create_words_indexes words) window_size lb la
      simp only [h1, h2, all_pairs_count_symm (create_words_indexes words) window_size
        documents la lb]

/-- C5, witness at a concrete corpus. -/
theorem c5_witness :
    (CoOccurrence.new ["cat dog"] ["cat", "dog"] 1).get_relation "cat" "dog"
      = (CoOccurrence.new ["cat dog"] ["cat", "dog"] 1).get_relation "dog" "cat" :=
  c5_symmetric_relation ["cat dog"] ["cat", "dog"] 1 (by decide) "cat" "dog"

/-- `get_relations`, fully reduced. -/
theorem get_relations_raw (documents words : List String) (window_size : Nat)
    (word : String) :
    (CoOccurrence.new documents words window_size).get_relations word
      = match create_words_indexes words word with
        | none => none
        | some label =>
          some ((List.range words.length).filterMap (fun i =>
            if fgtZero (get_matrix documents (create_words_indexes words) window_size label i)
            then (words.get? i).map
              (fun w => (w, get_matrix documents (create_words_indexes words) window_size label i))
            else none)) := rfl

/-- `get_matrix_row`, fully reduced. -/
theorem get_matrix_row_raw (documents words : List String) (window_size : Nat)
    (word : String) :
    (CoOccurrence.new documents words window_size).get_matrix_row word
      = match create_words_indexes words word with
        | none => none
        | some label =>
          some ((List.range words.length).map
            (fun i => get_matrix documents (create_words_indexes words) window_size label i))
        := rfl

/-- C8: queries for a term outside the vocabulary return `None` (absence), not
an error and not a default zero; queries for known terms return the stored
cell. -/
theorem c8_unknown_queries (documents words : List String) (window_size : Nat)
    (w1 w2 : String) :
    (w1 ∉ words →
      (CoOccurrence.new documents words window_size).get_relation w1 w2 = none ∧
      (CoOccurrence.new documents words window_size).get_relations w1 = none ∧
      (CoOccurrence.new documents words window_size).get_matrix_row w1 = none) ∧
    (w2 ∉ words →
      (CoOccurrence.new documents words window_size).get_relation w1 w2 = none) ∧
    (∀ l1 l2, (CoOccurrence.new documents words window_size).get_label w1 = some l1 →
      (CoOccurrence.new documents words window_size).get_label w2 = some l2 →
      (CoOccurrence.new documents words window_size).get_relation w1 w2
        = some ((CoOccurrence.new documents words window_size).matrix l1 l2)) ∧
    (w1 ∈ words → w2 ∈ words →
      ∃ v, (CoOccurrence.new documents words window_size).get_relation w1 w2 = some v) ∧
    (w1 ∈ words →
      (∃ r, (CoOccurrence.new documents words window_size).get_relations w1 = some r) ∧
      ∃ row, (CoOccurrence.new documents words window_size).get_matrix_row w1 = some row) := by
  refine ⟨?_, ?_, ?_, ?_, ?_⟩
  · intro h1
    have hn : create_words_indexes words w1 = none :=
      (create_words_indexes_eq_none_iff words w1).mpr h1
    refine ⟨?_, ?_, ?_⟩
    · rw [get_relation_raw, hn]
    · rw [get_relations_raw, hn]
    · rw [get_matrix_row_raw, hn]
  · intro h2
    have hn : create_words_indexes words w2 = none :=
      (create_words_indexes_eq_none_iff words w2).mpr h2
    rw [get_relation_raw, hn]
    cases create_words_indexes words w1 with
    | none => rfl
    | some l1 => rfl
  · intro l1 l2 h1 h2
    have h1' : create_words_indexes words w1 = some l1 := h1
    have h2' : create_words_indexes words w2 = some l2 := h2
    rw [get_relation_raw, h1', h2']
    rfl
  · intro h1 h2
    obtain ⟨l1, hl1, _⟩ := create_words_indexes_mem words w1 h1
    obtain ⟨l2, hl2, _⟩ := create_words_indexes_mem words w2 h2
    rw [get_relation_raw, hl1, hl2]
    exact ⟨_, rfl⟩
  · intro h1
    obtain ⟨l1, hl1, _⟩ := create_words_indexes_mem words w1 h1
    constructor
    · rw [get_relations_raw, hl1]
      exact ⟨_, rfl⟩
    · rw [get_matrix_row_raw, hl1]
      exact ⟨_, rfl⟩

/-- C8, witness: a known/unknown pair of queries on a concrete corpus. -/
theorem c8_witness :
    (CoOccurrence.new ["cat dog"] ["cat", "dog"] 1).get_relation "cat" "unknown_term"
      = none ∧
    (CoOccurrence.new ["cat dog"] ["cat", "dog"] 1).get_relations "unknown_term" = none ∧
    (∃ v, (CoOccurrence.new ["cat dog"] ["cat", "dog"] 1).get_relation "cat" "dog" = some v) :=
  ⟨(c8_unknown_queries ["cat dog"] ["cat", "dog"] 1 "cat" "unknown_term").2.1 (by decide),
   ((c8_unknown_queries ["cat dog"] ["cat", "dog"] 1 "unknown_term" "x").1 (by decide)).2.1,
   (c8_unknown_queries ["cat dog"] ["cat", "dog"] 1 "cat" "dog").2.2.2.1 (by decide) (by decide)⟩

/-! ## Word-graph construction (C4, C10) -/

/-- Unfolding association-list lookup one entry at a time. -/
theorem lookupA_cons {α : Type} (x : String) (v : α) (rest : List (String × α)) (k : String) :
    lookupA ((x, v) :: rest) k = if x = k then some v else lookupA rest k := by
  by_cases h : x = k <;> simp [lookupA, List.find?, h]

/-- Lookup after an edge bump: the bumped key gains 1 (over default 0), the
others are unchanged. -/
theorem lookupA_bump_edge (es : Edges) (w b : String) :
    lookupA (bump_edge es w) b
      = if b = w then some ((lookupA es w).getD 0 + 1) else lookupA es b := by
  induction es with
  | nil =>
    rw [show bump_edge [] w = [(w, 1)] from rfl, lookupA_cons]
    by_cases hb : b = w
    · subst hb
      rw [if_pos rfl, if_pos rfl, show lookupA ([] : Edges) b = none from rfl]
      norm_num
    · rw [if_neg (fun h => hb (Eq.symm h)), if_neg hb]
  | cons e rest ih =>
    obtain ⟨y, q⟩ := e
    by_cases hyw : y = w
    · subst hyw
      rw [show bump_edge ((y, q) :: rest) y = (y, q + 1) :: rest from by simp [bump_edge],
        lookupA_cons, lookupA_cons]
      by_cases hby : b = y
      · subst hby
        rw [if_pos rfl, if_pos rfl, if_pos rfl]
        rfl
      · have hyb : ¬ y = b := fun h => hby (Eq.symm h)
        rw [if_neg hyb, if_neg hby, lookupA_cons, if_neg hyb]
    · rw [show bump_edge ((y, q) :: rest) w = (y, q) :: bump_edge rest w from by
        simp [bump_edge, hyw], lookupA_cons,
        show lookupA ((y, q) :: rest) w = lookupA rest w from by
          rw [lookupA_cons, if_neg hyw],
        show lookupA ((y, q) :: rest) b = if y = b then some q else lookupA rest b from
          lookupA_cons y q rest b]
      by_cases hyb : y = b
      · have hbw : ¬ b = w := fun h => hyw (hyb.trans h)
        rw [if_pos hyb, if_neg hbw, if_pos hyb]
      · rw [if_neg hyb, if_neg hyb, ih]

/-- Lookup after `add_edge`: only the source node's neighbor map changes, by a
`bump_edge` on its (possibly defaulted-empty) previous neighbor map. -/
theorem lookupA_add_edge (g : WordGraph) (w1 w2 k : String) :
    lookupA (add_edge g w1 w2) k
      = if k = w1 then some (bump_edge ((lookupA g w1).getD []) w2) else lookupA g k := by
  induction g with
  | nil =>
    rw [show add_edge [] w1 w2 = [(w1, [(w2, 1)])] from rfl, lookupA_cons]
    by_cases hk : k = w1
    · subst hk
      rw [if_pos rfl, if_pos rfl, show lookupA ([] : WordGraph) k = none from rfl]
      rfl
    · rw [if_neg (fun h => hk (Eq.symm h)), if_neg hk]
  | cons e rest ih =>
    obtain ⟨x, es⟩ := e
    by_cases hx : x = w1
    · subst hx
      rw [show add_edge ((x, es) :: rest) x w2 = (x, bump_edge es w2) :: rest from by
        simp [add_edge], lookupA_cons, lookupA_cons]
      by_cases hk : k = x
      · subst hk
        rw [if_pos rfl, if_pos rfl, if_pos rfl]
        rfl
      · have hxk : ¬ x = k := fun h => hk (Eq.symm h)
        rw [if_neg hxk, if_neg hk, lookupA_cons, if_neg hxk]
    · rw [show add_edge ((x, es) :: rest) w1 w2 = (x, es) :: add_edge rest w1 w2 from by
        simp [add_edge, hx], lookupA_cons,
        show lookupA ((x, es) :: rest) w1 = lookupA rest w1 from by
          rw [lookupA_cons, if_neg hx],
        show lookupA ((x, es) :: rest) k = if x = k then some es else lookupA rest k from
          lookupA_cons x es rest k]
      by_cases hxk : x = k
      · have hkw : ¬ k = w1 := fun h => hx (hxk.trans h)
        rw [if_pos hxk, if_neg hkw, if_pos hxk]
      · rw [if_neg hxk, if_neg hxk, ih]

/-- Edge-weight change of a single `add_edge`: exactly the `(word1, word2)` slot
gains 1 (over default 0). -/
theorem getWeight_add_edge (g : WordGraph) (w1 w2 a b : String) :
    getWeight (add_edge g w1 w2) a b
      = if a = w1 ∧ b = w2 then some ((getWeight g w1 w2).getD 0 + 1)
        else getWeight g a b := by
  unfold getWeight
  rw [lookupA_add_edge]
  by_cases ha : a = w1
  · subst ha
    rw [if_pos rfl]
    rw [show (some (bump_edge ((lookupA g a).getD []) w2)).bind (fun es => lookupA es b)
        = lookupA (bump_edge ((lookupA g a).getD []) w2) b from rfl]
    rw [lookupA_bump_edge]
    by_cases hb : b = w2
    · subst hb
      rw [if_pos rfl, if_pos ⟨rfl, rfl⟩]
      cases hg : lookupA g a with
      | none => simp [hg]; rfl
      | some es => simp [hg]
    · rw [if_neg hb, if_neg (fun h => hb h.2)]
      cases hg : lookupA g a with
      | none => simp [hg]; rfl
      | some es => simp [hg]
  · rw [if_neg ha, if_neg (fun h => ha h.1)]

/-- Accumulating contributions composes additively. -/
theorem ocount_ocount (o : Option ℚ) (m n : Nat) :
    ocount (ocount o m) n = ocount o (m + n) := by
  by_cases hm : m = 0
  · subst hm; simp [ocount]
  · by_cases hn : n = 0
    · subst hn; simp [ocount]
    · simp only [ocount, if_neg hm, if_neg hn, if_neg (by omega : ¬ m + n = 0)]
      simp only [Option.getD_some]
      push_cast
      ring_nf

/-- One `add_edge` is an `ocount` step on the touched slot. -/
theorem getWeight_add_edge_ocount (g : WordGraph) (w1 w2 a b : String) :
    getWeight (add_edge g w1 w2) a b
      = if a = w1 ∧ b = w2 then ocount (getWeight g a b) 1 else getWeight g a b := by
  rw [getWeight_add_edge]
  by_cases h : a = w1 ∧ b = w2
  · obtain ⟨h1, h2⟩ := h
    subst h1; subst h2
    rw [if_pos ⟨rfl, rfl⟩, if_pos ⟨rfl, rfl⟩]
    simp [ocount]
  · rw [if_neg h, if_neg h]

/-- Master lemma for graph construction: processing a pair list (each visited
pair adding weight 1 in both directions) adds to slot `(a, b)` exactly the
number of visits of `(a, b)` plus the number of visits of `(b, a)`. -/
theorem foldl_add_edge_count (a b : String) (hab : ¬ a = b) :
    ∀ (ps : List (String × String)) (g : WordGraph), (∀ p ∈ ps, ¬ p.1 = p.2) →
    getWeight (ps.foldl (fun g p => add_edge (add_edge g p.1 p.2) p.2 p.1) g) a b
      = ocount (getWeight g a b) (ps.count (a, b) + ps.count (b, a)) := by
  intro ps
  induction ps with
  | nil => intro g _; simp [ocount]
  | cons p ps ih =>
    intro g hps
    have hp12 : ¬ p.1 = p.2 := hps p (List.mem_cons_self p ps)
    rw [List.foldl_cons, ih _ (fun q hq => hps q (List.mem_cons_of_mem p hq)),
      getWeight_add_edge_ocount, getWeight_add_edge_ocount, List.count_cons,
      List.count_cons]
    by_cases hA : a = p.1 ∧ b = p.2
    · have hnB : ¬ (a = p.2 ∧ b = p.1) := fun h => hp12 ((hA.1.symm).trans h.1)
      have hi1 : (p == (a, b)) = true := by
        rw [beq_iff_eq]
        exact Prod.ext hA.1.symm hA.2.symm
      have hi2 : (p == (b, a)) = false := by
        rw [beq_eq_false_iff_ne]
        intro h
        exact hab (hA.1.trans (congrArg Prod.fst h))
      rw [if_neg hnB, if_pos hA, ocount_ocount, hi1, hi2]
      congr 1
      simp
      omega
    · by_cases hB : a = p.2 ∧ b = p.1
      · have hi1 : (p == (a, b)) = false := by
          rw [beq_eq_false_iff_ne]
          intro h
          exact hA ⟨(congrArg Prod.fst h).symm, (congrArg Prod.snd h).symm⟩
        have hi2 : (p == (b, a)) = true := by
          rw [beq_iff_eq]
          exact Prod.ext hB.2.symm hB.1.symm
        rw [if_pos hB, if_neg hA, ocount_ocount, hi1, hi2]
        congr 1
        simp
        omega
      · have hi1 : (p == (a, b)) = false := by
          rw [beq_eq_false_iff_ne]
          intro h
          exact hA ⟨(congrArg Prod.fst h).symm, (congrArg Prod.snd h).symm⟩
        have hi2 : (p == (b, a)) = false := by
          rw [beq_eq_false_iff_ne]
          intro h
          exact hB ⟨(congrArg Prod.snd h).symm, (congrArg Prod.fst h).symm⟩
        rw [if_neg hB, if_neg hA, hi1, hi2]
        congr 1

/-- Every pair visited by `create_graph` has distinct components (the filter
`word1 != word2`). -/
theorem visit_pairs_ne (words : List String) (window_size : Nat) :
    ∀ p ∈ visit_pairs words window_size, ¬ p.1 = p.2 := by
  intro p hp
  unfold visit_pairs at hp
  rw [List.mem_flatMap] at hp
  obtain ⟨q, _, hp⟩ := hp
  rw [List.mem_map] at hp
  obtain ⟨w2, hw2, hpe⟩ := hp
  rw [List.mem_filter] at hw2
  have hne : ¬ q.2 = w2 := by simpa using hw2.2
  rw [← hpe]
  exact hne

/-- `create_graph` stores no self-loop: the diagonal stays absent. -/
theorem create_graph_self (words : List String) (window_size : Nat) (a : String) :
    getWeight (create_graph words window_size) a a = none := by
  have hne := visit_pairs_ne words window_size
  have key : ∀ (ps : List (String × String)) (g : WordGraph),
      (∀ p ∈ ps, ¬ p.1 = p.2) → getWeight g a a = none →
      getWeight (ps.foldl (fun g p => add_edge (add_edge g p.1 p.2) p.2 p.1) g) a a
        = none := by
    intro ps
    induction ps with
    | nil => intro g _ h; exact h
    | cons p ps ih =>
      intro g hps h
      rw [List.foldl_cons]
      apply ih _ (fun q hq => hps q (List.mem_cons_of_mem p hq))
      have hp12 := hps p (List.mem_cons_self p ps)
      rw [getWeight_add_edge_ocount, getWeight_add_edge_ocount]
      rw [if_neg (fun hc => hp12 (hc.2.symm.trans hc.1)),
        if_neg (fun hc => hp12 (hc.1.symm.trans hc.2))]
      exact h
  exact key _ [] hne rfl

/-- The stored weight between two distinct words is the bidirectional visit
count of the pair. -/
theorem create_graph_weight (words : List String) (window_size : Nat) (a b : String)
    (hab : ¬ a = b) :
    getWeight (create_graph words window_size) a b
      = ocount none ((visit_pairs words window_size).count (a, b)
          + (visit_pairs words window_size).count (b, a)) :=
  foldl_add_edge_count a b hab _ [] (visit_pairs_ne words window_size)

/-- C4: the word graph built by `create_graph` has no self-loops, every stored
edge weight is at least `1.0`, the stored weights are symmetric, and for
distinct words the stored weight is exactly the number of forward-window visits
of the pair in either orientation (each visit contributing `1.0` to both
directions). -/
theorem c4_graph_invariants (words : List String) (window_size : Nat) :
    (∀ a, getWeight (create_graph words window_size) a a = none) ∧
    (∀ a b q, getWeight (create_graph words window_size) a b = some q → 1 ≤ q) ∧
    (∀ a b, getWeight (create_graph words window_size) a b
      = getWeight (create_graph words window_size) b a) ∧
    (∀ a b, ¬ a = b → getWeight (create_graph words window_size) a b
      = ocount none ((visit_pairs words window_size).count (a, b)
          + (visit_pairs words window_size).count (b, a))) := by
  refine ⟨create_graph_self words window_size, ?_, ?_,
    create_graph_weight words window_size⟩
  · intro a b q h
    by_cases hab : a = b
    · rw [hab, create_graph_self words window_size b] at h; cases h
    · rw [create_graph_weight words window_size a b hab] at h
      unfold ocount at h
      by_cases hn : (visit_pairs words window_size).count (a, b)
          + (visit_pairs words window_size).count (b, a) = 0
      · rw [if_pos hn] at h; cases h
      · rw [if_neg hn] at h
        have hq := (Option.some.inj h).symm
        rw [hq]
        simp only [Option.getD_none]
        have h1 : 1 ≤ (((visit_pairs words window_size).count (a, b)
            + (visit_pairs words window_size).count (b, a) : ℕ) : ℚ) := by
          exact_mod_cast Nat.one_le_iff_ne_zero.mpr hn
        linarith
  · intro a b
    by_cases hab : a = b
    · rw [hab]
    · rw [create_graph_weight words window_size a b hab,
        create_graph_weight words window_size b a (fun h => hab h.symm)]
      congr 1
      omega

/-- C4, witness: in a concrete two-word graph the single visited pair stores
weight `1.0` on the edge. -/
theorem c4_witness : getWeight (create_graph ["x", "y"] 1) "x" "y" = some 1 := by
  have h := (c4_graph_invariants ["x", "y"] 1).2.2.2 "x" "y" (by decide)
  have hc : (visit_pairs ["x", "y"] 1).count ("x", "y")
      + (visit_pairs ["x", "y"] 1).count ("y", "x") = 1 := by decide
  rw [h, hc]
  unfold ocount
  norm_num

/-! ## Node invariants and outgoing weight sums (C10) -/

/-- `bump_edge` never empties a neighbor map. -/
theorem bump_edge_ne_nil (es : Edges) (w : String) : bump_edge es w ≠ [] := by
  cases es with
  | nil => simp [bump_edge]
  | cons e rest =>
    obtain ⟨y, q⟩ := e
    by_cases h : y = w <;> simp [bump_edge, h]

/-- `bump_edge` keeps every stored weight at least 1. -/
theorem bump_edge_entry (es : Edges) (w : String) (h : ∀ e ∈ es, 1 ≤ e.2) :
    ∀ e ∈ bump_edge es w, 1 ≤ e.2 := by
  induction es with
  | nil =>
    intro e he
    rw [show bump_edge [] w = [(w, 1)] from rfl, List.mem_singleton] at he
    rw [he]
  | cons e0 rest ih =>
    obtain ⟨y, q⟩ := e0
    intro e he
    by_cases hy : y = w
    · rw [show bump_edge ((y, q) :: rest) w = (y, q + 1) :: rest from by
        simp [bump_edge, hy]] at he
      rcases List.mem_cons.mp he with he | he
      · rw [he]
        have hq : 1 ≤ q := h (y, q) (List.mem_cons_self _ _)
        dsimp only
        linarith
      · exact h e (List.mem_cons_of_mem _ he)
    · rw [show bump_edge ((y, q) :: rest) w = (y, q) :: bump_edge rest w from by
        simp [bump_edge, hy]] at he
      rcases List.mem_cons.mp he with he | he
      · rw [he]
        exact h (y, q) (List.mem_cons_self _ _)
      · exact ih (fun e' he' => h e' (List.mem_cons_of_mem _ he')) e he

/-- `add_edge` preserves the node invariant: every node's neighbor map is
non-empty and all its weights are at least 1. -/
theorem add_edge_inv (g : WordGraph) (w1 w2 : String)
    (h : ∀ p ∈ g, p.2 ≠ [] ∧ ∀ e ∈ p.2, 1 ≤ e.2) :
    ∀ p ∈ add_edge g w1 w2, p.2 ≠ [] ∧ ∀ e ∈ p.2, 1 ≤ e.2 := by
  induction g with
  | nil =>
    intro p hp
    rw [show add_edge [] w1 w2 = [(w1, [(w2, 1)])] from rfl, List.mem_singleton] at hp
    rw [hp]
    constructor
    · simp
    · intro e he
      rw [List.mem_singleton] at he
      rw [he]
  | cons e0 rest ih =>
    obtain ⟨x, es⟩ := e0
    intro p hp
    by_cases hx : x = w1
    · rw [show add_edge ((x, es) :: rest) w1 w2 = (x, bump_edge es w2) :: rest from by
        simp [add_edge, hx]] at hp
      rcases List.mem_cons.mp hp with hp | hp
      · rw [hp]
        refine ⟨bump_edge_ne_nil es w2, bump_edge_entry es w2 ?_⟩
        exact (h (x, es) (List.mem_cons_self _ _)).2
      · exact h p (List.mem_cons_of_mem _ hp)
    · rw [show add_edge ((x, es) :: rest) w1 w2 = (x, es) :: add_edge rest w1 w2 from by
        simp [add_edge, hx]] at hp
      rcases List.mem_cons.mp hp with hp | hp
      · rw [hp]
        exact h (x, es) (List.mem_cons_self _ _)
      · exact ih (fun p' hp' => h p' (List.mem_cons_of_mem _ hp')) p hp

/-- The node invariant holds for the whole constructed graph. -/
theorem create_graph_inv (words : List String) (window_size : Nat) :
    ∀ p ∈ create_graph words window_size, p.2 ≠ [] ∧ ∀ e ∈ p.2, 1 ≤ e.2 := by
  have key : ∀ (ps : List (String × String)) (g : WordGraph),
      (∀ p ∈ g, p.2 ≠ [] ∧ ∀ e ∈ p.2, 1 ≤ e.2) →
      ∀ p ∈ ps.foldl (fun g p => add_edge (add_edge g p.1 p.2) p.2 p.1) g,
        p.2 ≠ [] ∧ ∀ e ∈ p.2, 1 ≤ e.2 := by
    intro ps
    induction ps with
    | nil => intro g h; exact h
    | cons p ps ih =>
      intro g h
      rw [List.foldl_cons]
      exact ih _ (add_edge_inv _ _ _ (add_edge_inv _ _ _ h))
  exact key _ [] (fun p hp => absurd hp (List.not_mem_nil p))

/-- A successful lookup is a member of the association list. -/
theorem lookupA_mem {α : Type} (l : List (String × α)) (k : String) (v : α)
    (h : lookupA l k = some v) : (k, v) ∈ l := by
  unfold lookupA at h
  cases hf : l.find? (fun p => p.1 = k) with
  | none => rw [hf] at h; cases h
  | some pr =>
    rw [hf] at h
    have hv : pr.2 = v := Option.some.inj h
    have hk : pr.1 = k := by simpa using List.find?_some hf
    have hpr : pr ∈ l := List.mem_of_find?_eq_some hf
    rw [← hk, ← hv]
    exact hpr

/-- A key occurring in the association list has a successful lookup. -/
theorem lookupA_isSome {α : Type} (l : List (String × α)) (p : String × α) (hp : p ∈ l) :
    ∃ v, lookupA l p.1 = some v := by
  have hs : (l.find? (fun q => q.1 = p.1)).isSome := by
    rw [List.find?_isSome]
    exact ⟨p, hp, by simp⟩
  cases hf : l.find? (fun q => q.1 = p.1) with
  | none => rw [hf] at hs; cases hs
  | some pr => exact ⟨pr.2, by unfold lookupA; rw [hf]; rfl⟩

/-- Lookup in the outgoing-weight-sum map is the summed neighbor map. -/
theorem lookupA_outgoing (g : WordGraph) (k : String) :
    lookupA (get_outgoing_weight_sum g) k
      = (lookupA g k).map (fun es => ((es.map (fun e => e.2)).sum)) := by
  induction g with
  | nil => rfl
  | cons p rest ih =>
    obtain ⟨x, es⟩ := p
    rw [show get_outgoing_weight_sum ((x, es) :: rest)
        = (x, ((es.map (fun e => e.2)).sum)) :: get_outgoing_weight_sum rest from rfl,
      lookupA_cons, lookupA_cons]
    by_cases hx : x = k
    · rw [if_pos hx, if_pos hx]
      rfl
    · rw [if_neg hx, if_neg hx, ih]

/-- A non-empty neighbor map whose weights are all at least 1 has outgoing
weight sum at least 1. -/
theorem sum_ge_one (es : Edges) (hne : es ≠ []) (h : ∀ e ∈ es, 1 ≤ e.2) :
    1 ≤ (es.map (fun e => e.2)).sum := by
  cases es with
  | nil => exact absurd rfl hne
  | cons e rest =>
    rw [List.map_cons, List.sum_cons]
    have h1 : 1 ≤ e.2 := h e (List.mem_cons_self _ _)
    have h2 : 0 ≤ (rest.map (fun e => e.2)).sum := by
      apply List.sum_nonneg
      intro x hx
      rw [List.mem_map] at hx
      obtain ⟨e', he', hx⟩ := hx
      rw [← hx]
      have := h e' (List.mem_cons_of_mem _ he')
      linarith
    linarith

/-- C10: every node present in the constructed graph has a non-empty neighbor
map with all weights at least `1.0`, its outgoing weight sum (as computed by
`get_outgoing_weight_sum`) is at least `1.0`, and every neighbor referenced by
an edge is itself a node with outgoing weight sum at least `1.0` — so the
division by the neighbor's outgoing weight sum in `score_word` is never a
division by zero. -/
theorem c10_no_zero_division (words : List String) (window_size : Nat) :
    ∀ node es, lookupA (create_graph words window_size) node = some es →
      es ≠ [] ∧ (∀ e ∈ es, 1 ≤ e.2) ∧
      lookupA (get_outgoing_weight_sum (create_graph words window_size)) node
        = some ((es.map (fun e => e.2)).sum) ∧
      1 ≤ (es.map (fun e => e.2)).sum ∧
      (∀ e ∈ es, ∃ s,
        lookupA (get_outgoing_weight_sum (create_graph words window_size)) e.1 = some s ∧
        1 ≤ s) := by
  intro node es h
  have hmem := lookupA_mem _ _ _ h
  have hinv := create_graph_inv words window_size (node, es) hmem
  refine ⟨hinv.1, hinv.2, ?_, ?_, ?_⟩
  · rw [lookupA_outgoing, h]
    rfl
  · exact sum_ge_one es hinv.1 hinv.2
  · intro e he
    obtain ⟨q, hq⟩ := lookupA_isSome es e he
    have hw : getWeight (create_graph words window_size) node e.1 = some q := by
      unfold getWeight
      rw [h]
      exact hq
    have hne : ¬ node = e.1 := by
      intro hcon
      rw [hcon, create_graph_self words window_size e.1] at hw
      cases hw
    have h1 := create_graph_weight words window_size node e.1 hne
    have h2 := create_graph_weight words window_size e.1 node (fun hcon => hne hcon.symm)
    rw [hw] at h1
    have hn : ¬ ((visit_pairs words window_size).count (node, e.1)
        + (visit_pairs words window_size).count (e.1, node)) = 0 := by
      intro hz
      rw [hz] at h1
      unfold ocount at h1
      rw [if_pos rfl] at h1
      cases h1
    have hsym : getWeight (create_graph words window_size) e.1 node ≠ none := by
      rw [h2]
      unfold ocount
      rw [if_neg (by omega)]
      simp
    cases hl : lookupA (create_graph words window_size) e.1 with
    | none =>
      exfalso
      apply hsym
      unfold getWeight
      rw [hl]
      rfl
    | some es' =>
      have hmem' := lookupA_mem _ _ _ hl
      have hinv' := create_graph_inv words window_size (e.1, es') hmem'
      refine ⟨(es'.map (fun e => e.2)).sum, ?_, ?_⟩
      · rw [lookupA_outgoing, hl]
        rfl
      · exact sum_ge_one es' hinv'.1 hinv'.2

/-- C10, witness: in the concrete two-word graph the node `"x"` has the
non-empty neighbor map `[("y", 1)]` with outgoing weight sum `1`. -/
theorem c10_witness :
    ([("y", (1 : ℚ))] : Edges) ≠ [] ∧
    1 ≤ (([("y", (1 : ℚ))] : Edges).map (fun e => e.2)).sum :=
  ⟨(c10_no_zero_division ["x", "y"] 1 "x" [("y", 1)] (by rfl)).1,
   (c10_no_zero_division ["x", "y"] 1 "x" [("y", 1)] (by rfl)).2.2.2.1⟩

/-! ## Ranking utility (C3) -/

/-- C3: for every word-to-score map and every `n`, the ranked projections
return exactly `min n |map|` entries, in an order sorted by the comparator
(score descending, exact ties by term ascending); `n = 0` yields the empty
sequence and `n ≥ |map|` yields all entries (a permutation of the map). -/
theorem c3_ranking (map : List (String × ℚ)) (n : Nat) :
    (get_ranked_strings map n).length = min n map.length ∧
    (get_ranked_scores map n).length = min n map.length ∧
    get_ranked_strings map n = (get_ranked_scores map n).map (fun p => p.1) ∧
    (basic_sort map).Perm map ∧
    (basic_sort map).Sorted rank_ord ∧
    get_ranked_scores map n = (basic_sort map).take n ∧
    (get_ranked_scores map n).Sorted rank_ord ∧
    (n = 0 → get_ranked_scores map n = [] ∧ get_ranked_strings map n = []) ∧
    (map.length ≤ n → (get_ranked_scores map n).Perm map) := by
  have hperm : (basic_sort map).Perm map := List.perm_insertionSort rank_ord map
  have hsorted : (basic_sort map).Sorted rank_ord := List.sorted_insertionSort rank_ord map
  have hlen : (basic_sort map).length = map.length := hperm.length_eq
  refine ⟨?_, ?_, rfl, hperm, hsorted, rfl, ?_, ?_, ?_⟩
  · unfold get_ranked_strings
    rw [List.length_map, List.length_take, hlen]
  · unfold get_ranked_scores
    rw [List.length_take, hlen]
  · exact List.Pairwise.sublist (List.take_sublist n _) hsorted
  · intro h
    rw [h]
    exact ⟨rfl, rfl⟩
  · intro h
    unfold get_ranked_scores
    rw [List.take_of_length_le (by rw [hlen]; exact h)]
    exact hperm

/-- C3, witness: `n = 0` yields the empty result, and on a two-entry map with
tied scores the tie is broken lexicographically. -/
theorem c3_witness :
    get_ranked_scores [("b", (1 : ℚ)), ("a", 1)] 0 = [] ∧
    get_ranked_scores [("b", (1 : ℚ)), ("a", 1)] 2 = [("a", 1), ("b", 1)] := by
  constructor
  · exact ((c3_ranking [("b", 1), ("a", 1)] 0).2.2.2.2.2.2.2.1 rfl).1
  · have h := (c3_ranking [("b", 1), ("a", 1)] 2).2.2.2.2.2.1
    rw [h]
    have hsort : basic_sort [("b", (1 : ℚ)), ("a", 1)] = [("a", 1), ("b", 1)] := by
      unfold basic_sort
      rw [show List.insertionSort rank_ord [("b", (1 : ℚ)), ("a", 1)]
          = List.orderedInsert rank_ord ("b", 1)
              (List.orderedInsert rank_ord ("a", 1) []) from rfl]
      rw [show List.orderedInsert rank_ord ("a", (1 : ℚ)) [] = [("a", 1)] from rfl]
      rw [List.orderedInsert]
      rw [if_neg ?_]
      · rfl
      · unfold rank_ord
        push_neg
        constructor
        · norm_num
        · intro _
          show ("a", (1 : ℚ)).1 < ("b", (1 : ℚ)).1
          rw [show (("a", (1 : ℚ)).1 : String) = "a" from rfl,
            show (("b", (1 : ℚ)).1 : String) = "b" from rfl, String.lt_iff_toList_lt]
          decide
    rw [hsort]
    rfl

/-! ## Phrase scoring (C6) -/

/-- Omitted lookups contribute zero: summing the found scores equals summing
with default 0. -/
theorem sum_filterMap_lookup (word_rank : List (String × ℚ)) :
    ∀ ws : List String,
      ((ws.filterMap (fun w => lookupA word_rank w)).sum)
        = ((ws.map (fun w => (lookupA word_rank w).getD 0)).sum) := by
  intro ws
  induction ws with
  | nil => rfl
  | cons w ws ih =>
    cases hl : lookupA word_rank w with
    | none => simp [List.filterMap_cons, hl, ih]
    | some q => simp [List.filterMap_cons, hl, ih]

/-- C6 (amended): phrase scoring splits on whitespace, sums the scores of the
words present in the map (absent words contributing 0 by omission) and divides
by the raw word count; a phrase with at least one word none of which is in the
map scores 0, while a phrase with no words at all (empty or all-whitespace)
scores `0.0/0.0 = NaN`, not 0. -/
theorem c6_phrase_scoring (phrase : String) (word_rank : List (String × ℚ)) :
    (score_phrase phrase word_rank).1 = phrase ∧
    (splitWhitespace phrase ≠ [] →
      (score_phrase phrase word_rank).2
        = FVal.fin ((((splitWhitespace phrase).map
            (fun w => (lookupA word_rank w).getD 0)).sum)
            / ((splitWhitespace phrase).length : ℚ)) ∧
      ((∀ w ∈ splitWhitespace phrase, lookupA word_rank w = none) →
        (score_phrase phrase word_rank).2 = FVal.fin 0)) ∧
    (splitWhitespace phrase = [] → (score_phrase phrase word_rank).2 = FVal.nan) := by
  have hval : (score_phrase phrase word_rank).2
      = fdiv (((splitWhitespace phrase).filterMap (fun w => lookupA word_rank w)).sum)
          (((splitWhitespace phrase).length : ℕ) : ℚ) := rfl
  refine ⟨rfl, ?_, ?_⟩
  · intro hne
    have hlen : (((splitWhitespace phrase).length : ℕ) : ℚ) ≠ 0 := by
      have hl0 : (splitWhitespace phrase).length ≠ 0 := by
        intro h0
        exact hne (List.length_eq_zero.mp h0)
      exact_mod_cast hl0
    constructor
    · rw [hval, sum_filterMap_lookup]
      unfold fdiv
      rw [if_neg hlen]
    · intro hall
      rw [hval]
      have hsum : ((splitWhitespace phrase).filterMap (fun w => lookupA word_rank w)) = [] := by
        rw [List.filterMap_eq_nil]
        exact hall
      rw [hsum]
      show fdiv 0 (((splitWhitespace phrase).length : ℕ) : ℚ) = FVal.fin 0
      unfold fdiv
      rw [if_neg hlen, zero_div]
  · intro hz
    rw [hval, hz]
    show fdiv 0 ((0 : ℕ) : ℚ) = FVal.nan
    unfold fdiv
    rw [if_pos (by norm_num)]

/-- C6, counterexample to the claim as stated: a whitespace-only phrase has no
words (so vacuously none of its words are in the map), yet it scores
`0.0/0.0 = NaN`, not 0. -/
theorem c6_counterexample :
    (score_phrase " " [("quick", (1 : ℚ))]).2 = FVal.nan ∧ FVal.nan ≠ FVal.fin 0 := by
  constructor
  · have hs : splitWhitespace " " = [] := rfl
    show fdiv (((splitWhitespace " ").filterMap
        (fun w => lookupA [("quick", (1 : ℚ))] w)).sum)
        (((splitWhitespace " ").length : ℕ) : ℚ) = FVal.nan
    rw [hs]
    show fdiv 0 ((0 : ℕ) : ℚ) = FVal.nan
    unfold fdiv
    rw [if_pos (by norm_num)]
  · intro h
    cases h

/-- C6, witness: the spec's example — word scores `quick ↦ 3/5`, `fox ↦ 2/5`,
phrase `"quick fox"` — scores `(3/5 + 2/5) / 2 = 1/2`. -/
theorem c6_witness :
    (score_phrase "quick fox" [("quick", (3 : ℚ)/5), ("fox", (2 : ℚ)/5)]).2
      = FVal.fin (1/2) := by
  have h := ((c6_phrase_scoring "quick fox"
      [("quick", (3 : ℚ)/5), ("fox", (2 : ℚ)/5)]).2.1 (by decide)).1
  rw [h]
  have hs : splitWhitespace "quick fox" = ["quick", "fox"] := rfl
  rw [hs, List.map_cons, List.map_cons, List.map_nil,
    show lookupA [("quick", (3 : ℚ)/5), ("fox", (2 : ℚ)/5)] "quick" = some ((3 : ℚ)/5)
      from rfl,
    show lookupA [("quick", (3 : ℚ)/5), ("fox", (2 : ℚ)/5)] "fox" = some ((2 : ℚ)/5)
      from rfl]
  norm_num

/-! ## Power iteration (C2) -/

/-- A fuelled retry loop of this shape returns precisely the first iterate (of
index at least 1, within fuel) whose check against its predecessor passes. -/
theorem loop_first_success {α : Type} (f : α → α) (c : α → α → Bool)
    (loop : Nat → α → Option α)
    (hstep : ∀ fuel prev, loop (fuel + 1) prev
      = if c (f prev) prev then some (f prev) else loop fuel (f prev)) :
    ∀ (fuel : Nat) (prev s : α), loop fuel prev = some s →
      (∀ q, loop 0 q = none) →
      ∃ n, 1 ≤ n ∧ n ≤ fuel ∧ s = f^[n] prev ∧
        c (f^[n] prev) (f^[n - 1] prev) = true ∧
        ∀ m, 1 ≤ m → m < n → c (f^[m] prev) (f^[m - 1] prev) = false := by
  intro fuel
  induction fuel with
  | zero =>
    intro prev s h h0
    rw [h0 prev] at h
    cases h
  | succ fuel ih =>
    intro prev s h h0
    rw [hstep fuel prev] at h
    by_cases hc : c (f prev) prev = true
    · rw [if_pos hc] at h
      refine ⟨1, le_refl 1, by omega, (Option.some.inj h).symm, ?_, ?_⟩
      · simpa using hc
      · intro m hm1 hm2
        omega
    · rw [if_neg hc] at h
      obtain ⟨n, hn1, hnf, hs, hchk, hprev⟩ := ih (f prev) s h h0
      obtain ⟨k, rfl⟩ : ∃ k, n = k + 1 := ⟨n - 1, by omega⟩
      refine ⟨k + 2, by omega, by omega, ?_, ?_, ?_⟩
      · rw [Function.iterate_succ_apply]
        exact hs
      · have h1 : k + 2 - 1 = k + 1 := by omega
        rw [h1, Function.iterate_succ_apply f (k + 1) prev,
          Function.iterate_succ_apply f k prev]
        simpa using hchk
      · intro m hm1 hm2
        by_cases hm : m = 1
        · subst hm
          have h1 : (1 : Nat) - 1 = 0 := rfl
          rw [h1, Function.iterate_one, Function.iterate_zero_apply]
          exact (Bool.not_eq_true _) ▸ hc
        · obtain ⟨j, rfl⟩ : ∃ j, m = j + 2 := ⟨m - 2, by omega⟩
          have h2 : j + 2 - 1 = j + 1 := by omega
          rw [h2, Function.iterate_succ_apply f (j + 1) prev,
            Function.iterate_succ_apply f j prev]
          have := hprev (j + 1) (by omega) (by omega)
          simpa using this

/-- `check_tolorance` passes exactly when every per-index absolute change is
strictly below the tolerance (over the zipped common length). -/
theorem check_tolorance_iff : ∀ (s p : List ℚ) (tol : ℚ),
    check_tolorance s p tol = true
      ↔ ∀ i, i < min s.length p.length → |s.getD i 0 - p.getD i 0| < tol := by
  intro s
  induction s with
  | nil =>
    intro p tol
    constructor
    · intro _ i hi
      simp at hi
    · intro _
      rfl
  | cons a s ih =>
    intro p tol
    cases p with
    | nil =>
      constructor
      · intro _ i hi
        simp at hi
      · intro _
        rfl
    | cons b p =>
      rw [show check_tolorance (a :: s) (b :: p) tol
          = ((decide (|a - b| < tol)) && check_tolorance s p tol) from rfl]
      rw [Bool.and_eq_true, decide_eq_true_eq, ih p tol]
      constructor
      · rintro ⟨h1, h2⟩ i hi
        cases i with
        | zero => simpa using h1
        | succ i =>
          have hi' : i < min s.length p.length := by
            simp only [List.length_cons] at hi
            omega
          simpa using h2 i hi'
      · intro hh
        constructor
        · simpa using hh 0 (by simp only [List.length_cons]; omega)
        · intro i hi
          have := hh (i + 1) (by simp only [List.length_cons]; omega)
          simpa using this

/-- A `none` lookup means no entry carries the key. -/
theorem lookupA_eq_none_iff {α : Type} (l : List (String × α)) (k : String) :
    lookupA l k = none ↔ ∀ p ∈ l, ¬ p.1 = k := by
  unfold lookupA
  rw [Option.map_eq_none', List.find?_eq_none]
  constructor
  · intro h p hp
    have := h p hp
    simpa using this
  · intro h p hp
    simpa using h p hp

/-- `add_edge` appends the source node as a new key exactly when it was
absent. -/
theorem graph_nodes_add_edge (g : WordGraph) (w1 w2 : String) :
    graph_nodes (add_edge g w1 w2)
      = if lookupA g w1 = none then graph_nodes g ++ [w1] else graph_nodes g := by
  induction g with
  | nil =>
    rw [if_pos (show lookupA ([] : WordGraph) w1 = none from rfl)]
    rfl
  | cons p rest ih =>
    obtain ⟨x, es⟩ := p
    by_cases hx : x = w1
    · rw [show add_edge ((x, es) :: rest) w1 w2 = (x, bump_edge es w2) :: rest from by
        simp [add_edge, hx]]
      rw [if_neg (by rw [lookupA_cons, if_pos hx]; simp)]
      rfl
    · rw [show add_edge ((x, es) :: rest) w1 w2 = (x, es) :: add_edge rest w1 w2 from by
        simp [add_edge, hx]]
      rw [show lookupA ((x, es) :: rest) w1 = lookupA rest w1 from by
        rw [lookupA_cons, if_neg hx]]
      rw [show graph_nodes ((x, es) :: add_edge rest w1 w2)
          = x :: graph_nodes (add_edge rest w1 w2) from rfl]
      rw [ih]
      by_cases hl : lookupA rest w1 = none
      · rw [if_pos hl, if_pos hl]
        rfl
      · rw [if_neg hl, if_neg hl]
        rfl

/-- A `none` lookup keeps the key out of the node list. -/
theorem not_mem_nodes_of_lookupA_none (g : WordGraph) (k : String)
    (h : lookupA g k = none) : k ∉ graph_nodes g := by
  intro hmem
  unfold graph_nodes at hmem
  rw [List.mem_map] at hmem
  obtain ⟨p, hp, hpk⟩ := hmem
  exact (lookupA_eq_none_iff g k).mp h p hp hpk

/-- `add_edge` keeps the node list duplicate-free. -/
theorem add_edge_nodes_nodup (g : WordGraph) (w1 w2 : String)
    (h : (graph_nodes g).Nodup) : (graph_nodes (add_edge g w1 w2)).Nodup := by
  rw [graph_nodes_add_edge]
  by_cases hl : lookupA g w1 = none
  · rw [if_pos hl, List.nodup_append]
    refine ⟨h, List.nodup_singleton w1, ?_⟩
    intro a ha hb
    rw [List.mem_singleton] at hb
    rw [hb] at ha
    exact not_mem_nodes_of_lookupA_none g w1 hl ha
  · rw [if_neg hl]
    exact h

/-- The constructed graph's node list is duplicate-free. -/
theorem create_graph_nodes_nodup (words : List String) (window_size : Nat) :
    (graph_nodes (create_graph words window_size)).Nodup := by
  have key : ∀ (ps : List (String × String)) (g : WordGraph), (graph_nodes g).Nodup →
      (graph_nodes (ps.foldl (fun g p => add_edge (add_edge g p.1 p.2) p.2 p.1) g)).Nodup := by
    intro ps
    induction ps with
    | nil => intro g h; exact h
    | cons p ps ih =>
      intro g h
      rw [List.foldl_cons]
      exact ih _ (add_edge_nodes_nodup _ _ _ (add_edge_nodes_nodup _ _ _ h))
  exact key _ [] List.nodup_nil

/-- With duplicate-free keys, membership determines the lookup. -/
theorem lookupA_of_mem_nodup {α : Type} :
    ∀ (g : List (String × α)), (g.map (fun p => p.1)).Nodup →
      ∀ (k : String) (v : α), (k, v) ∈ g → lookupA g k = some v := by
  intro g
  induction g with
  | nil =>
    intro _ k v hmem
    cases hmem
  | cons p rest ih =>
    obtain ⟨x, es⟩ := p
    intro hnd k v hmem
    rw [List.map_cons, List.nodup_cons] at hnd
    rcases List.mem_cons.mp hmem with hm | hm
    · have hx : x = k := congrArg Prod.fst hm.symm
      rw [lookupA_cons, if_pos hx]
      have : es = v := congrArg Prod.snd hm.symm
      rw [this]
    · have hx : ¬ x = k := by
        intro hcon
        apply hnd.1
        rw [List.mem_map]
        exact ⟨(k, v), hm, by rw [hcon]⟩
      rw [lookupA_cons, if_neg hx]
      exact ih hnd.2 k v hm

/-- `find?` finds a designated element when it is the unique match. -/
theorem find?_eq_of_unique {α : Type} (p : α → Bool) :
    ∀ (l : List α) (x : α), x ∈ l → p x = true →
      (∀ y ∈ l, p y = true → y = x) → l.find? p = some x := by
  intro l
  induction l with
  | nil =>
    intro x hx
    cases hx
  | cons a l ih =>
    intro x hx hpx huniq
    by_cases hpa : p a = true
    · have hax : a = x := huniq a (List.mem_cons_self a l) hpa
      rw [List.find?_cons, hpa]
      rw [hax]
    · rw [List.find?_cons]
      rw [show p a = false from by
        cases hb : p a with
        | false => rfl
        | true => exact absurd hb hpa]
      have hxl : x ∈ l := by
        rcases List.mem_cons.mp hx with hx | hx
        · exfalso
          apply hpa
          rw [← hx]
          exact hpx
        · exact hx
      exact ih x hxl hpx (fun y hy hpy => huniq y (List.mem_cons_of_mem a hy) hpy)

/-- On a duplicate-free list, the labelling map sends the `i`-th element
to `i`. -/
theorem create_words_indexes_nodup_get (l : List String) (h : l.Nodup) (i : Nat)
    (hi : i < l.length) : create_words_indexes l (l.get ⟨i, hi⟩) = some i := by
  rw [create_words_indexes_eq]
  have hfind : l.enum.reverse.find? (fun p => p.2 = l.get ⟨i, hi⟩)
      = some (i, l.get ⟨i, hi⟩) := by
    apply find?_eq_of_unique
    · rw [List.mem_reverse, List.mem_enum_iff_get?]
      exact List.get?_eq_get hi
    · simp
    · intro y hy hpy
      rw [List.mem_reverse, List.mem_enum_iff_get?] at hy
      have hpy' : y.2 = l.get ⟨i, hi⟩ := by simpa using hpy
      have h1 : l.get? y.1 = some (l.get ⟨i, hi⟩) := by rw [hy, hpy']
      have h2 : l.get? i = some (l.get ⟨i, hi⟩) := List.get?_eq_get hi
      have hy1 : y.1 < l.length := (List.get?_eq_some.mp h1).1
      have : y.1 = i := List.get?_inj hy1 h (h1.trans h2.symm)
      calc y = (y.1, y.2) := rfl
        _ = (i, l.get ⟨i, hi⟩) := by rw [this, hpy']
  rw [hfind]

/-- Index of a key in a duplicate-free node list. -/
theorem get_node_indexes_of_mem (nodes : List String) (h : nodes.Nodup) (k : String)
    (hmem : k ∈ nodes) : get_node_indexes nodes k = some (nodes.indexOf k) := by
  have hi : nodes.indexOf k < nodes.length := List.indexOf_lt_length.mpr hmem
  have hget : nodes.get ⟨nodes.indexOf k, hi⟩ = k := List.indexOf_get hi
  have hx := create_words_indexes_nodup_get nodes h (nodes.indexOf k) hi
  rw [hget] at hx
  exact hx

/-- Every neighbor referenced by some node's edge list is itself a node of the
constructed graph. -/
theorem create_graph_closure (words : List String) (window_size : Nat) :
    ∀ node es e, lookupA (create_graph words window_size) node = some es → e ∈ es →
      ∃ es', lookupA (create_graph words window_size) e.1 = some es' := by
  intro node es e h he
  obtain ⟨q, hq⟩ := lookupA_isSome es e he
  have hw : getWeight (create_graph words window_size) node e.1 = some q := by
    unfold getWeight
    rw [h]
    exact hq
  have hne : ¬ node = e.1 := by
    intro hcon
    rw [hcon, create_graph_self words window_size e.1] at hw
    cases hw
  have h1 := create_graph_weight words window_size node e.1 hne
  have h2 := create_graph_weight words window_size e.1 node (fun hcon => hne hcon.symm)
  rw [hw] at h1
  have hn : ¬ ((visit_pairs words window_size).count (node, e.1)
      + (visit_pairs words window_size).count (e.1, node)) = 0 := by
    intro hz
    rw [hz] at h1
    unfold ocount at h1
    rw [if_pos rfl] at h1
    cases h1
  have hsym : getWeight (create_graph words window_size) e.1 node ≠ none := by
    rw [h2]
    unfold ocount
    rw [if_neg (by omega)]
    simp
  cases hl : lookupA (create_graph words window_size) e.1 with
  | none =>
    exfalso
    apply hsym
    unfold getWeight
    rw [hl]
    rfl
  | some es' => exact ⟨es', rfl⟩

/-- The source's per-iteration pass coincides with the spec's formula
(§4.4 step 3): new score = `(1 - d) + d * Σ_neighbor (edge_weight /
outgoing_weight_sum(neighbor)) * previous_score(neighbor)`, with the outgoing
sums those of the static graph and previous scores read at the key list's
positions. -/
theorem tr_step_eq_spec (words : List String) (window_size : Nat) (damping : ℚ)
    (prev : List ℚ) :
    tr_step (create_graph words window_size) damping prev
      = spec_score_update (create_graph words window_size) prev damping := by
  have hnd := create_graph_nodes_nodup words window_size
  unfold tr_step get_scores spec_score_update
  apply List.map_congr_left
  intro p hp
  unfold score_word
  have hlp : lookupA (create_graph words window_size) p.1 = some p.2 :=
    lookupA_of_mem_nodup _ hnd p.1 p.2 (by simpa using hp)
  congr 1
  congr 1
  congr 1
  apply List.map_congr_left
  intro e he
  obtain ⟨es', hes'⟩ := create_graph_closure words window_size p.1 p.2 e hlp he
  have hout : lookupA (get_outgoing_weight_sum (create_graph words window_size)) e.1
      = some ((es'.map (fun x => x.2)).sum) := by
    rw [lookupA_outgoing, hes']
    rfl
  have hspec : spec_outgoing_sum (create_graph words window_size) e.1
      = (es'.map (fun x => x.2)).sum := by
    unfold spec_outgoing_sum
    rw [hes']
    rfl
  have hkey : e.1 ∈ graph_nodes (create_graph words window_size) := by
    unfold graph_nodes
    rw [List.mem_map]
    exact ⟨(e.1, es'), lookupA_mem _ _ _ hes', rfl⟩
  have hidx : get_node_indexes (graph_nodes (create_graph words window_size)) e.1
      = some ((graph_nodes (create_graph words window_size)).indexOf e.1) :=
    get_node_indexes_of_mem _ hnd e.1 hkey
  rw [hout, hspec, hidx]
  unfold spec_prev_at
  rfl

/-- Rebuilding the score map by per-node index lookup is, for duplicate-free
keys and matching lengths, exactly zipping the key list with the score
vector. -/
theorem word_rank_zip (nodes : List String) (hnd : nodes.Nodup) (scores : List ℚ)
    (hlen : scores.length = nodes.length) :
    nodes.map (fun node => (node, scores.getD ((get_node_indexes nodes node).getD 0) 0))
      = nodes.zip scores := by
  apply List.ext_get?
  intro i
  by_cases hi : i < nodes.length
  · have his : i < scores.length := by omega
    rw [List.get?_map, List.get?_eq_get hi]
    simp only [Option.map_some']
    have hidx : get_node_indexes nodes (nodes.get ⟨i, hi⟩) = some i :=
      create_words_indexes_nodup_get nodes hnd i hi
    rw [hidx]
    rw [show nodes.zip scores = List.zipWith Prod.mk nodes scores from rfl,
      List.get?_zipWith', List.get?_eq_get hi, List.get?_eq_get his]
    simp only [Option.map_some', Option.some_bind]
    rw [show ((some i).getD 0) = i from rfl, List.getD_eq_get scores 0 his]
  · push_neg at hi
    rw [List.get?_eq_none.mpr (by rw [List.length_map]; exact hi),
      List.get?_eq_none.mpr (by rw [List.length_zip]; omega)]

/-- The score vector after any positive number of iterations has one entry per
graph node. -/
theorem tr_iter_length (G : WordGraph) (d : ℚ) (n : Nat) (hn : 1 ≤ n) :
    (tr_iter G d n).length = G.length := by
  obtain ⟨k, rfl⟩ : ∃ k, n = k + 1 := ⟨n - 1, by omega⟩
  unfold tr_iter
  rw [Function.iterate_succ_apply']
  unfold tr_step get_scores
  exact List.length_map _ _

/-- C2: TextRank power iteration starts every node at score `1.0`; each
iteration replaces every node's score by the spec's damped update formula,
with the outgoing weight sums those of the static graph (computed once); and
the loop stops exactly at the first iteration at which every node's absolute
score change is strictly below `tol` (within the fuel bound standing for the
unbounded source loop). -/
theorem c2_power_iteration (words : List String) (window_size : Nat) (damping tol : ℚ)
    (fuel : Nat) (wr : List (String × ℚ))
    (h : create_word_rank (create_graph words window_size) damping tol fuel = some wr) :
    tr_iter (create_graph words window_size) damping 0
        = List.replicate (graph_nodes (create_graph words window_size)).length 1 ∧
    (∀ m, tr_iter (create_graph words window_size) damping (m + 1)
        = tr_step (create_graph words window_size) damping
            (tr_iter (create_graph words window_size) damping m)) ∧
    (∀ prev, tr_step (create_graph words window_size) damping prev
        = spec_score_update (create_graph words window_size) prev damping) ∧
    (∀ s p t, check_tolorance s p t = true
        ↔ ∀ i, i < min s.length p.length → |s.getD i 0 - p.getD i 0| < t) ∧
    (∃ n, 1 ≤ n ∧ n ≤ fuel ∧
      wr = (graph_nodes (create_graph words window_size)).zip
          (tr_iter (create_graph words window_size) damping n) ∧
      tr_stop (create_graph words window_size) damping tol n = true ∧
      ∀ m, 1 ≤ m → m < n →
        tr_stop (create_graph words window_size) damping tol m = false) := by
  refine ⟨rfl, ?_, tr_step_eq_spec words window_size damping, check_tolorance_iff, ?_⟩
  · intro m
    exact Function.iterate_succ_apply' _ m _
  · unfold create_word_rank at h
    rw [Option.map_eq_some'] at h
    obtain ⟨scores, hloop, hwr⟩ := h
    obtain ⟨n, hn1, hnf, hs, hchk, hprev⟩ := loop_first_success
      (fun x => get_scores (create_graph words window_size)
        (get_node_indexes (graph_nodes (create_graph words window_size)))
        (get_outgoing_weight_sum (create_graph words window_size)) x damping)
      (fun s p => check_tolorance s p tol)
      (rank_loop (create_graph words window_size)
        (get_node_indexes (graph_nodes (create_graph words window_size)))
        (get_outgoing_weight_sum (create_graph words window_size)) damping tol)
      (fun _ _ => rfl)
      fuel (List.replicate (graph_nodes (create_graph words window_size)).length 1)
      scores hloop (fun _ => rfl)
    have hfeq : (fun x => get_scores (create_graph words window_size)
        (get_node_indexes (graph_nodes (create_graph words window_size)))
        (get_outgoing_weight_sum (create_graph words window_size)) x damping)
        = tr_step (create_graph words window_size) damping := rfl
    rw [hfeq] at hs hchk hprev
    refine ⟨n, hn1, hnf, ?_, ?_, ?_⟩
    · rw [← hwr, hs]
      have hzip := word_rank_zip (graph_nodes (create_graph words window_size))
        (create_graph_nodes_nodup words window_size)
        (tr_iter (create_graph words window_size) damping n)
        (by rw [tr_iter_length _ _ n hn1]
            exact (List.length_map _ _).symm)
      exact hzip
    · exact hchk
    · intro m hm1 hmn
      exact hprev m hm1 hmn

/-- C2, witness: on the two-word input the loop stops after one iteration
(every score stays at `1.0` there) and the claim's characterization holds at
that concrete run. -/
theorem c2_witness :
    ∃ n, 1 ≤ n ∧ n ≤ 2 ∧
      ([("x", (1 : ℚ)), ("y", 1)] : List (String × ℚ))
        = (graph_nodes (create_graph ["x", "y"] 1)).zip
            (tr_iter (create_graph ["x", "y"] 1) (1/2) n) ∧
      tr_stop (create_graph ["x", "y"] 1) (1/2) (1/10) n = true ∧
      ∀ m, 1 ≤ m → m < n → tr_stop (create_graph ["x", "y"] 1) (1/2) (1/10) m = false :=
  (c2_power_iteration ["x", "y"] 1 (1/2) (1/10) 2 [("x", 1), ("y", 1)] (by
    have hG : create_graph ["x", "y"] 1
        = [("x", [("y", (1 : ℚ))]), ("y", [("x", (1 : ℚ))])] := rfl
    have h1 : ¬ ("x" : String) = "y" := by decide
    have h2 : ¬ ("y" : String) = "x" := by decide
    rw [hG]
    norm_num [create_word_rank, rank_loop, get_scores, score_word, check_tolorance,
      graph_nodes, get_node_indexes, create_words_indexes, get_outgoing_weight_sum,
      lookupA, List.find?, List.enum, List.enumFrom, abs, h1, h2])).2.2.2.2
